import Mathlib

set_option maxHeartbeats 1000000
set_option maxRecDepth 10000

/-!
Verification of the Claudia CI review pipeline
(`.github/scripts/core_review.py`, `core_review_v3.py`, `review_standalone.py`,
`laozhang_codebase_review.py`, `laozhang_review.py`).

Strings are modelled as `List Char` (`LC`).  Python's `str.find`, slicing,
`strip`, the `<think>` regex removal, fenced-block unwrapping, the brace-depth
scan and `json.loads` are all given executable shallow embeddings below, and
the review scripts' functions (`review_code`, `format_files`, `gather_files`,
`format_issue_body`, `should_include_path`) are translated on top of them.
-/

abbrev LC := List Char

/-- Whether `pat` is a prefix of `s` (used to model Python `str.find` and
`str.startswith`). -/
def isPreOf : LC → LC → Bool
  | [], _ => true
  | _ :: _, [] => false
  | p :: ps, c :: cs => p == c && isPreOf ps cs

/-- Worker for `findSub`: index (offset by `i`) of the first occurrence of
`pat` in `s`. -/
def findSubGo : LC → LC → Nat → Option Nat
  | [], pat, i => if isPreOf pat [] then some i else none
  | c :: cs, pat, i =>
    if isPreOf pat (c :: cs) then some i else findSubGo cs pat (i + 1)

/-- Python `s.find(pat)`: index of the first occurrence, `none` for `-1`. -/
def findSub (s pat : LC) : Option Nat := findSubGo s pat 0

/-- Python `pat in s`. -/
def hasSub (s pat : LC) : Bool := (findSub s pat).isSome

/-- Python `s.find(pat, start)`. -/
def findSubFrom (s pat : LC) (start : Nat) : Option Nat :=
  (findSub (s.drop start) pat).map (· + start)

/-- Python `str.strip`'s whitespace set (ASCII part). -/
def pyWs (c : Char) : Bool :=
  c == ' ' || c == '\t' || c == '\n' || c == '\r' ||
    c == Char.ofNat 11 || c == Char.ofNat 12

/-- Python `s.strip()`. -/
def stripChars (s : LC) : LC :=
  ((s.dropWhile pyWs).reverse.dropWhile pyWs).reverse

/-- Decimal digit to character. -/
def digitChar : Nat → Char
  | 0 => '0' | 1 => '1' | 2 => '2' | 3 => '3' | 4 => '4'
  | 5 => '5' | 6 => '6' | 7 => '7' | 8 => '8' | _ => '9'

/-- Fuelled decimal rendering worker. -/
def natCharsGo : Nat → Nat → LC → LC
  | _, 0, acc => acc
  | n, f + 1, acc =>
    if n < 10 then digitChar n :: acc
    else natCharsGo (n / 10) f (digitChar (n % 10) :: acc)

/-- Decimal rendering of a natural number (Python `str(n)` for `n ≥ 0`). -/
def natChars (n : Nat) : LC := natCharsGo n (n + 1) []

/-- Python `str(n)` for an int. -/
def intChars (n : Int) : LC :=
  if n < 0 then '-' :: natChars n.natAbs else natChars n.toNat

/-- Numeric value of a list of decimal digit characters. -/
def digitsVal (cs : LC) : Nat := cs.foldl (fun a c => 10 * a + (c.toNat - 48)) 0

/-! ## JSON model

`Json` models the Python values produced by `json.loads` on the reviewer's
structured output: objects, arrays, strings, integers, booleans and null.
(Floating-point literals, `\uXXXX` escapes and leading-zero rejection are
outside the fragment exercised by `ReviewResult` payloads and are not
modelled.) -/

inductive Json where
  | null : Json
  | bool : Bool → Json
  | num : Int → Json
  | str : LC → Json
  | arr : List Json → Json
  | obj : List (LC × Json) → Json
deriving Repr

/-- JSON string escaping as performed by `json.dumps` on printable ASCII
content: quote and backslash get a backslash escape, other characters pass
through. -/
def escChar (c : Char) : LC :=
  if c == '"' then ['\\', '"']
  else if c == '\\' then ['\\', '\\']
  else [c]

/-- Escaped body of a JSON string literal. -/
def escL : LC → LC
  | [] => []
  | c :: cs => escChar c ++ escL cs

/-- A JSON string literal, quotes included. -/
def dumpStr (s : LC) : LC := '"' :: escL s ++ ['"']

mutual

/-- Model of Python `json.dumps` with its default separators `", "` / `": "`. -/
def dumpsV : Json → LC
  | .null => 'n' :: 'u' :: 'l' :: 'l' :: []
  | .bool true => 't' :: 'r' :: 'u' :: 'e' :: []
  | .bool false => 'f' :: 'a' :: 'l' :: 's' :: 'e' :: []
  | .num n => intChars n
  | .str s => dumpStr s
  | .arr xs => '[' :: dumpsList xs ++ [']']
  | .obj kvs => '{' :: dumpsMems kvs ++ ['}']

/-- Comma-joined array elements. -/
def dumpsList : List Json → LC
  | [] => []
  | [x] => dumpsV x
  | x :: y :: xs => dumpsV x ++ ',' :: ' ' :: dumpsList (y :: xs)

/-- Comma-joined object members. -/
def dumpsMems : List (LC × Json) → LC
  | [] => []
  | [(k, v)] => dumpStr k ++ ':' :: ' ' :: dumpsV v
  | (k, v) :: m :: ms => dumpStr k ++ ':' :: ' ' :: dumpsV v ++ ',' :: ' ' :: dumpsMems (m :: ms)

end

/-- JSON whitespace. -/
def jWs (c : Char) : Bool := c == ' ' || c == '\n' || c == '\t' || c == '\r'

/-- Skip JSON whitespace. -/
def skipWs (s : LC) : LC := s.dropWhile jWs

/-- Body of a JSON string after the opening quote; returns the decoded
content and the input remaining after the closing quote. -/
def parseStrBody : Nat → LC → Option (LC × LC)
  | 0, _ => none
  | _ + 1, [] => none
  | f + 1, c :: cs =>
    if c == '"' then some ([], cs)
    else if c == '\\' then
      match cs with
      | [] => none
      | e :: cs' =>
        let dec : Option Char :=
          if e == '"' then some '"'
          else if e == '\\' then some '\\'
          else if e == '/' then some '/'
          else if e == 'n' then some '\n'
          else if e == 't' then some '\t'
          else if e == 'r' then some '\r'
          else if e == 'b' then some (Char.ofNat 8)
          else if e == 'f' then some (Char.ofNat 12)
          else none
        match dec with
        | some d =>
          match parseStrBody f cs' with
          | some (s, r) => some (d :: s, r)
          | none => none
        | none => none
    else
      match parseStrBody f cs with
      | some (s, r) => some (c :: s, r)
      | none => none

/-- First character test. -/
def headIs (c : Char) (s : LC) : Bool :=
  match s with
  | x :: _ => x == c
  | [] => false

/-- Parse a JSON number (integer fragment). -/
def parseNumFrom (s : LC) : Option (Json × LC) :=
  if headIs '-' s then
    let ds := s.tail.takeWhile Char.isDigit
    let r := s.tail.dropWhile Char.isDigit
    if ds.isEmpty then none else some (.num (-(Int.ofNat (digitsVal ds))), r)
  else
    let ds := s.takeWhile Char.isDigit
    let r := s.dropWhile Char.isDigit
    if ds.isEmpty then none else some (.num (Int.ofNat (digitsVal ds)), r)

mutual

/-- Recursive-descent JSON value parser (fuelled), modelling the accepting
behaviour of Python `json.loads` on the fragment described at `Json`. -/
def parseVal : Nat → LC → Option (Json × LC)
  | 0, _ => none
  | f + 1, s =>
    match skipWs s with
    | [] => none
    | c :: cs =>
      if c == '{' then
        let cs' := skipWs cs
        if headIs '}' cs' then some (.obj [], cs'.tail)
        else
          match parseMembers f cs' with
          | some (kvs, r) => some (.obj kvs, r)
          | none => none
      else if c == '[' then
        let cs' := skipWs cs
        if headIs ']' cs' then some (.arr [], cs'.tail)
        else
          match parseElems f cs' with
          | some (vs, r) => some (.arr vs, r)
          | none => none
      else if c == '"' then
        match parseStrBody f cs with
        | some (s, r) => some (.str s, r)
        | none => none
      else if c == 't' then
        if isPreOf ('r' :: 'u' :: 'e' :: []) cs then some (.bool true, cs.drop 3) else none
      else if c == 'f' then
        if isPreOf ('a' :: 'l' :: 's' :: 'e' :: []) cs then some (.bool false, cs.drop 4) else none
      else if c == 'n' then
        if isPreOf ('u' :: 'l' :: 'l' :: []) cs then some (.null, cs.drop 3) else none
      else if c == '-' || c.isDigit then parseNumFrom (c :: cs)
      else none

/-- One or more `"key": value` members, consuming the closing `}`. -/
def parseMembers : Nat → LC → Option (List (LC × Json) × LC)
  | 0, _ => none
  | f + 1, s =>
    match skipWs s with
    | '"' :: cs =>
      match parseStrBody f cs with
      | some (k, r1) =>
        match skipWs r1 with
        | ':' :: r2 =>
          match parseVal f r2 with
          | some (v, r3) =>
            match skipWs r3 with
            | ',' :: r4 =>
              match parseMembers f r4 with
              | some (kvs, r5) => some ((k, v) :: kvs, r5)
              | none => none
            | '}' :: r4 => some ([(k, v)], r4)
            | _ => none
          | none => none
        | _ => none
      | none => none
    | _ => none

/-- One or more array elements, consuming the closing `]`. -/
def parseElems : Nat → LC → Option (List Json × LC)
  | 0, _ => none
  | f + 1, s =>
    match parseVal f s with
    | some (v, r) =>
      match skipWs r with
      | ',' :: r2 =>
        match parseElems f r2 with
        | some (vs, r3) => some (v :: vs, r3)
        | none => none
      | ']' :: r2 => some ([v], r2)
      | _ => none
    | none => none

end

/-- Model of Python `json.loads`: parse one value, demand only whitespace
after it. -/
def jsonLoads (t : LC) : Option Json :=
  match parseVal (t.length + 1) t with
  | some (v, rest) => if (skipWs rest).isEmpty then some v else none
  | none => none

/-! ## Response extraction
(`core_review_v3.review_code` lines 277–317 and the identical logic in
`review_standalone.review_code` lines 181–213). -/

/-- The literal `<think>`. -/
def thinkOpen : LC := "<think>".data

/-- The literal `</think>`. -/
def thinkClose : LC := "</think>".data

/-- The literal ```` ```json ````. -/
def fenceJson : LC := "```json".data

/-- The literal ```` ``` ````. -/
def fence3 : LC := "```".data

/-- Worker for `removeThink`, fuelled by the input length (each removal
shortens the remaining input by at least 15 characters). -/
def removeThinkGo : Nat → LC → LC
  | 0, s => s
  | f + 1, s =>
    match findSub s thinkOpen with
    | none => s
    | some i =>
      match findSub (s.drop (i + 7)) thinkClose with
      | none => s
      | some j => s.take i ++ removeThinkGo f (s.drop (i + 7 + j + 8))

/-- Model of `re.sub(r'<think>.*?</think>', '', raw, flags=re.DOTALL)`:
repeatedly delete the leftmost `<think>` together with the earliest
following `</think>`. -/
def removeThink (s : LC) : LC := removeThinkGo s.length s

/-- Fence unwrapping: prefer a ```` ```json ```` block, else any
```` ``` ```` block, keeping the text unchanged when the closing fence is
missing (Python's `end > start` guard). -/
def fenceStep (t : LC) : LC :=
  match findSub t fenceJson with
  | some i =>
    let s := i + 7
    match findSubFrom t fence3 s with
    | some e => if s < e then stripChars ((t.drop s).take (e - s)) else t
    | none => t
  | none =>
    match findSub t fence3 with
    | some i =>
      let s := i + 3
      match findSubFrom t fence3 s with
      | some e => if s < e then stripChars ((t.drop s).take (e - s)) else t
      | none => t
    | none => t

/-- Step 3 of the extraction: when the text does not start with `{`, drop
everything before the first `{` (no change when there is none). -/
def braceSeek (t : LC) : LC :=
  if headIs '{' t then t
  else
    match findSub t ['{'] with
    | some i => t.drop i
    | none => t

/-- Brace-depth scan: position one past the character at which the running
`{`/`}` depth first returns to zero. -/
def braceScanGo : LC → Int → Nat → Option Nat
  | [], _, _ => none
  | c :: cs, d, i =>
    if c == '{' then braceScanGo cs (d + 1) (i + 1)
    else if c == '}' then
      if d - 1 == 0 then some (i + 1) else braceScanGo cs (d - 1) (i + 1)
    else braceScanGo cs d (i + 1)

/-- Step 4: when the text starts with `{`, truncate it at the point where the
brace depth returns to zero (unchanged when it never does). -/
def braceTrunc (t : LC) : LC :=
  if headIs '{' t then
    match braceScanGo t 0 0 with
    | some e => t.take e
    | none => t
  else t

/-- The full structured-output extraction performed inside `review_code`:
strip `<think>` blocks, `strip()`, unwrap a code fence, seek and isolate a
brace-balanced span, then `json.loads`.  `none` models the
`json.JSONDecodeError` raised by `json.loads`. -/
def extractReview (raw : LC) : Option Json :=
  jsonLoads (braceTrunc (braceSeek (fenceStep (stripChars (removeThink raw)))))


/-! ## Lemmas: substring search, strip, decimal digits. -/

theorem isPreOf_append_self (pat b : LC) : isPreOf pat (pat ++ b) = true := by
  induction pat with
  | nil => rfl
  | cons c cs ih => simp [isPreOf, ih]

theorem findSubGo_of_isPre {pat s : LC} (h : isPreOf pat s = true) (i : Nat) :
    findSubGo s pat i = some i := by
  cases s with
  | nil => simp [findSubGo, h]
  | cons c cs => simp [findSubGo, h]

theorem findSubGo_shift {c0 : Char} {pt : LC} (a : LC) (ha : ∀ c ∈ a, c ≠ c0)
    (s : LC) (i : Nat) :
    findSubGo (a ++ s) (c0 :: pt) i = findSubGo s (c0 :: pt) (i + a.length) := by
  induction a generalizing i with
  | nil => simp
  | cons x xs ih =>
    have hx : (c0 == x) = false := by
      have hne := ha x (by simp)
      cases h : c0 == x
      · rfl
      · exact absurd (beq_iff_eq.mp h).symm hne
    simp only [List.cons_append, findSubGo, isPreOf, hx, Bool.false_and,
      Bool.false_eq_true, if_false]
    rw [show xs.append s = xs ++ s from rfl, ih (fun c hc => ha c (by simp [hc]))]
    congr 1
    simp only [List.length_cons]
    omega

theorem findSubGo_none {c0 : Char} {pt : LC} (s : LC) (hs : ∀ c ∈ s, c ≠ c0)
    (i : Nat) : findSubGo s (c0 :: pt) i = none := by
  have h := @findSubGo_shift c0 pt s hs [] i
  rw [List.append_nil] at h
  rw [h]
  simp [findSubGo, isPreOf]

theorem findSub_boundary {c0 : Char} {pt : LC} (a b : LC) (ha : ∀ c ∈ a, c ≠ c0) :
    findSub (a ++ (c0 :: pt) ++ b) (c0 :: pt) = some a.length := by
  unfold findSub
  rw [List.append_assoc, findSubGo_shift a ha]
  rw [findSubGo_of_isPre (isPreOf_append_self _ _)]
  simp

theorem findSub_none {c0 : Char} {pt : LC} (s : LC) (hs : ∀ c ∈ s, c ≠ c0) :
    findSub s (c0 :: pt) = none := findSubGo_none s hs 0

theorem dropWhile_append_stop (p : Char → Bool) (a : LC) {c : Char} (b : LC)
    (hc : p c = false) :
    (a ++ c :: b).dropWhile p = a.dropWhile p ++ c :: b := by
  induction a with
  | nil => simp [List.dropWhile_cons, hc]
  | cons x xs ih =>
    by_cases hx : p x
    · simp [List.dropWhile_cons, hx, ih]
    · simp [List.dropWhile_cons, hx]

theorem dropWhile_cons_neg (p : Char → Bool) {c : Char} (l : LC)
    (hc : p c = false) : (c :: l).dropWhile p = c :: l := by
  simp [List.dropWhile_cons, hc]

/-- Strip with a non-whitespace first and last character of the suffix:
only the prefix's leading whitespace is removed. -/
theorem stripChars_append (pre F : LC) {c d : Char} {t u : LC}
    (hF : F = c :: t) (hc : pyWs c = false)
    (hR : F.reverse = d :: u) (hd : pyWs d = false) :
    stripChars (pre ++ F) = pre.dropWhile pyWs ++ F := by
  unfold stripChars
  rw [hF, dropWhile_append_stop _ _ _ hc, ← hF]
  rw [List.reverse_append, hR, List.cons_append, dropWhile_cons_neg _ _ hd]
  have h2 : d :: (u ++ (pre.dropWhile pyWs).reverse)
      = F.reverse ++ (pre.dropWhile pyWs).reverse := by
    rw [hR]; simp
  rw [h2]
  simp

/-- Strip of a single-newline-wrapped core with non-whitespace ends. -/
theorem stripChars_nl (core : LC) {c d : Char} {t u : LC}
    (hF : core = c :: t) (hc : pyWs c = false)
    (hR : core.reverse = d :: u) (hd : pyWs d = false) :
    stripChars ('\n' :: core ++ ['\n']) = core := by
  unfold stripChars
  have h1 : ('\n' :: core ++ ['\n']).dropWhile pyWs = core ++ ['\n'] := by
    rw [List.cons_append, List.dropWhile_cons]
    have : pyWs '\n' = true := by decide
    rw [this]
    simp only [if_true]
    rw [hF, List.cons_append, dropWhile_cons_neg _ _ hc]
  rw [h1]
  have h2 : (core ++ ['\n']).reverse = '\n' :: core.reverse := by simp
  rw [h2, List.dropWhile_cons]
  have : pyWs '\n' = true := by decide
  rw [this]
  simp only [if_true]
  rw [hR, dropWhile_cons_neg _ _ hd, ← hR]
  simp

theorem digitChar_isDigit (n : Nat) : (digitChar n).isDigit = true := by
  unfold digitChar
  split <;> decide

theorem digitChar_val (n : Nat) (h : n < 10) : (digitChar n).toNat - 48 = n := by
  interval_cases n <;> decide

theorem natCharsGo_append (n f : Nat) (acc : LC) :
    natCharsGo n f acc = natCharsGo n f [] ++ acc := by
  induction f generalizing n acc with
  | zero => simp [natCharsGo]
  | succ f ih =>
    by_cases h : n < 10
    · simp [natCharsGo, h]
    · simp only [natCharsGo, h, if_false]
      rw [ih, ih (n / 10) [digitChar (n % 10)]]
      simp

theorem natChars_unfold (n : Nat) (h : ¬ n < 10) :
    natChars n = natChars (n / 10) ++ [digitChar (n % 10)] := by
  unfold natChars
  conv =>
    lhs
    rw [natCharsGo]
  simp only [h, if_false]
  rw [natCharsGo_append]
  congr 1
  have h10 : n / 10 < n := Nat.div_lt_self (by omega) (by omega)
  -- fuel invariance: any fuel ≥ n/10 + 1 computes the same digits
  suffices hs : ∀ f g m, m < f → m < g → natCharsGo m f [] = natCharsGo m g [] by
    exact hs n (n / 10 + 1) (n / 10) (by omega) (by omega)
  intro f
  induction f with
  | zero => omega
  | succ f ihf =>
    intro g m hf hg
    cases g with
    | zero => omega
    | succ g =>
      by_cases hm : m < 10
      · simp [natCharsGo, hm]
      · simp only [natCharsGo, hm, if_false]
        rw [natCharsGo_append, natCharsGo_append (m / 10) g]
        have : m / 10 < m := Nat.div_lt_self (by omega) (by omega)
        rw [ihf g (m / 10) (by omega) (by omega)]

theorem natChars_small (n : Nat) (h : n < 10) : natChars n = [digitChar n] := by
  unfold natChars natCharsGo
  simp [h]

theorem digitsVal_append_one (cs : LC) (c : Char) :
    digitsVal (cs ++ [c]) = 10 * digitsVal cs + (c.toNat - 48) := by
  simp [digitsVal, List.foldl_append]

theorem digitsVal_natChars (n : Nat) : digitsVal (natChars n) = n := by
  induction n using Nat.strong_induction_on with
  | _ n ih =>
    by_cases h : n < 10
    · rw [natChars_small n h]
      simp [digitsVal, digitChar_val n h]
    · rw [natChars_unfold n h, digitsVal_append_one,
        ih (n / 10) (Nat.div_lt_self (by omega) (by omega)),
        digitChar_val (n % 10) (Nat.mod_lt _ (by omega))]
      omega

theorem natChars_ne_nil (n : Nat) : natChars n ≠ [] := by
  by_cases h : n < 10
  · rw [natChars_small n h]; simp
  · rw [natChars_unfold n h]; simp

theorem natChars_all_digit (n : Nat) : ∀ c ∈ natChars n, c.isDigit = true := by
  induction n using Nat.strong_induction_on with
  | _ n ih =>
    by_cases h : n < 10
    · rw [natChars_small n h]
      intro c hc
      simp at hc
      subst hc
      exact digitChar_isDigit n
    · rw [natChars_unfold n h]
      intro c hc
      rcases List.mem_append.mp hc with h1 | h1
      · exact ih (n / 10) (Nat.div_lt_self (by omega) (by omega)) c h1
      · simp at h1
        subst h1
        exact digitChar_isDigit (n % 10)

/-! ## Lemmas: whitespace skipping, string bodies, numbers. -/

theorem skipWs_cons_neg {c : Char} (l : LC) (h : jWs c = false) :
    skipWs (c :: l) = c :: l := by
  simp [skipWs, List.dropWhile_cons, h]

theorem skipWs_ws_append (sp t : LC) (h : ∀ c ∈ sp, jWs c = true) :
    skipWs (sp ++ t) = skipWs t := by
  induction sp with
  | nil => simp
  | cons c cs ih =>
    have hc : jWs c = true := h c (by simp)
    simp only [List.cons_append, skipWs, List.dropWhile_cons, hc, if_true]
    exact ih (fun c hc => h c (by simp [hc]))

theorem escL_len_cons (c : Char) (cs : LC) :
    (escL (c :: cs)).length = (escChar c).length + (escL cs).length := by
  simp [escL]

theorem escChar_len_pos (c : Char) : 1 ≤ (escChar c).length := by
  unfold escChar
  by_cases h1 : c == '"' <;> by_cases h2 : c == '\\' <;> simp [h1, h2]

theorem parseStrBody_quote (g : Nat) (r : LC) :
    parseStrBody (g + 1) ('"' :: r) = some ([], r) := rfl

theorem parseStrBody_escQ (g : Nat) (t : LC) :
    parseStrBody (g + 1) ('\\' :: '"' :: t) =
      (match parseStrBody g t with
        | some (s, r) => some ('"' :: s, r)
        | none => none) := rfl

theorem parseStrBody_escB (g : Nat) (t : LC) :
    parseStrBody (g + 1) ('\\' :: '\\' :: t) =
      (match parseStrBody g t with
        | some (s, r) => some ('\\' :: s, r)
        | none => none) := rfl

theorem parseStrBody_plain (g : Nat) (c : Char) (t : LC)
    (hq : (c == '"') = false) (hb : (c == '\\') = false) :
    parseStrBody (g + 1) (c :: t) =
      (match parseStrBody g t with
        | some (s, r) => some (c :: s, r)
        | none => none) := by
  simp only [parseStrBody, hq, hb, Bool.false_eq_true, if_false]

theorem parseStrBody_escL : ∀ (f : Nat) (s r : LC), (escL s).length < f →
    parseStrBody f (escL s ++ '"' :: r) = some (s, r) := by
  intro f s
  induction s generalizing f with
  | nil =>
    intro r hf
    obtain ⟨g, rfl⟩ : ∃ g, f = g + 1 := ⟨f - 1, by omega⟩
    simp [escL, parseStrBody_quote]
  | cons c cs ih =>
    intro r hf
    rw [escL_len_cons] at hf
    have hec := escChar_len_pos c
    obtain ⟨g, rfl⟩ : ∃ g, f = g + 1 := ⟨f - 1, by omega⟩
    have hesc : escL (c :: cs) = escChar c ++ escL cs := rfl
    by_cases hq : c = '"'
    · subst hq
      have he : escChar '"' = ['\\', '"'] := by decide
      rw [he] at hf
      rw [hesc, he]
      rw [show (['\\', '"'] ++ escL cs) ++ '"' :: r
        = '\\' :: '"' :: (escL cs ++ '"' :: r) by simp]
      rw [parseStrBody_escQ, ih g r (by simp at hf; omega)]
    · by_cases hb : c = '\\'
      · subst hb
        have he : escChar '\\' = ['\\', '\\'] := by decide
        rw [he] at hf
        rw [hesc, he]
        rw [show (['\\', '\\'] ++ escL cs) ++ '"' :: r
          = '\\' :: '\\' :: (escL cs ++ '"' :: r) by simp]
        rw [parseStrBody_escB, ih g r (by simp at hf; omega)]
      · have he : escChar c = [c] := by
          unfold escChar
          rw [if_neg (by simpa using hq), if_neg (by simpa using hb)]
        rw [he] at hf
        rw [hesc, he]
        rw [show ([c] ++ escL cs) ++ '"' :: r = c :: (escL cs ++ '"' :: r) by simp]
        rw [parseStrBody_plain g c _ (by simpa using hq) (by simpa using hb),
          ih g r (by simp at hf; omega)]

theorem takeWhile_digits (ds r : LC) (hds : ∀ c ∈ ds, c.isDigit = true)
    (hr : ∀ c, r.head? = some c → c.isDigit = false) :
    (ds ++ r).takeWhile Char.isDigit = ds ∧
      (ds ++ r).dropWhile Char.isDigit = r := by
  induction ds with
  | nil =>
    simp only [List.nil_append]
    cases r with
    | nil => simp
    | cons c cs =>
      have := hr c (by simp)
      simp [List.takeWhile_cons, List.dropWhile_cons, this]
  | cons d ds ih =>
    have hd : d.isDigit = true := hds d (by simp)
    have := ih (fun c hc => hds c (by simp [hc]))
    simp [List.takeWhile_cons, List.dropWhile_cons, hd, this.1, this.2]

theorem digitChar_ne (d : Nat) (c : Char) (hc : c.isDigit = false) :
    (digitChar d == c) = false := by
  cases h : digitChar d == c
  · rfl
  · have he : digitChar d = c := beq_iff_eq.mp h
    rw [← he, digitChar_isDigit] at hc
    cases hc

theorem digitChar_jWs (d : Nat) : jWs (digitChar d) = false := by
  unfold digitChar
  split <;> rfl

theorem natChars_head (n : Nat) : ∃ d t, natChars n = digitChar d :: t := by
  induction n using Nat.strong_induction_on with
  | _ n ih =>
    by_cases h : n < 10
    · exact ⟨n, [], natChars_small n h⟩
    · obtain ⟨d, t, ht⟩ := ih (n / 10) (Nat.div_lt_self (by omega) (by omega))
      exact ⟨d, t ++ [digitChar (n % 10)], by rw [natChars_unfold n h, ht]; simp⟩

theorem parseNumFrom_intChars (n : Int) (r : LC)
    (hr : ∀ c, r.head? = some c → c.isDigit = false) :
    parseNumFrom (intChars n ++ r) = some (.num n, r) := by
  by_cases hn : n < 0
  · have hi : intChars n = '-' :: natChars n.natAbs := by simp [intChars, hn]
    rw [hi]
    have hsp := takeWhile_digits (natChars n.natAbs) r (natChars_all_digit _) hr
    simp only [List.cons_append, parseNumFrom, headIs, List.tail_cons,
      beq_self_eq_true, if_true, hsp.1, hsp.2]
    rw [if_neg (by simpa using natChars_ne_nil n.natAbs)]
    rw [digitsVal_natChars]
    have hv : -(Int.ofNat n.natAbs) = n := by
      rw [Int.ofNat_eq_natCast]; omega
    rw [hv]
  · have hi : intChars n = natChars n.toNat := by simp [intChars, hn]
    rw [hi]
    obtain ⟨d, t, ht⟩ := natChars_head n.toNat
    have hh : headIs '-' (natChars n.toNat ++ r) = false := by
      rw [ht]
      simp [headIs, digitChar_ne d '-' (by decide)]
    have hsp := takeWhile_digits (natChars n.toNat) r (natChars_all_digit _) hr
    simp only [parseNumFrom, hh, Bool.false_eq_true, if_false, hsp.1, hsp.2]
    rw [if_neg (by simpa using natChars_ne_nil n.toNat)]
    rw [digitsVal_natChars]
    have hv : Int.ofNat n.toNat = n := by
      rw [Int.ofNat_eq_natCast]; omega
    rw [hv]

/-! ## Lemmas: the parser recovers every serialized value. -/

theorem skipWs_skipWs (s : LC) : skipWs (skipWs s) = skipWs s := by
  induction s with
  | nil => rfl
  | cons c cs ih =>
    by_cases h : jWs c
    · simp only [skipWs, List.dropWhile_cons, h, if_true]
      exact ih
    · have h' : jWs c = false := by simpa using h
      rw [skipWs_cons_neg _ h', skipWs_cons_neg _ h']

theorem parseVal_skipWs (g : Nat) (s : LC) :
    parseVal (g + 1) s = parseVal (g + 1) (skipWs s) := by
  simp only [parseVal, skipWs_skipWs]

theorem parseMembers_skipWs (g : Nat) (s : LC) :
    parseMembers (g + 1) s = parseMembers (g + 1) (skipWs s) := by
  simp only [parseMembers, skipWs_skipWs]

theorem parseVal_vnull (g : Nat) (rest : LC) :
    parseVal (g + 1) ('n' :: 'u' :: 'l' :: 'l' :: rest) = some (.null, rest) := rfl

theorem parseVal_vtrue (g : Nat) (rest : LC) :
    parseVal (g + 1) ('t' :: 'r' :: 'u' :: 'e' :: rest) = some (.bool true, rest) := rfl

theorem parseVal_vfalse (g : Nat) (rest : LC) :
    parseVal (g + 1) ('f' :: 'a' :: 'l' :: 's' :: 'e' :: rest)
      = some (.bool false, rest) := rfl

theorem parseVal_vstr (g : Nat) (t : LC) :
    parseVal (g + 1) ('"' :: t) =
      (match parseStrBody g t with
        | some (s, r) => some (.str s, r)
        | none => none) := rfl

theorem parseVal_varr (g : Nat) (t : LC) :
    parseVal (g + 1) ('[' :: t) =
      (if headIs ']' (skipWs t) then some (.arr [], (skipWs t).tail)
       else
         match parseElems g (skipWs t) with
         | some (vs, r) => some (.arr vs, r)
         | none => none) := rfl

theorem parseVal_vobj (g : Nat) (t : LC) :
    parseVal (g + 1) ('{' :: t) =
      (if headIs '}' (skipWs t) then some (.obj [], (skipWs t).tail)
       else
         match parseMembers g (skipWs t) with
         | some (kvs, r) => some (.obj kvs, r)
         | none => none) := rfl

theorem parseVal_vneg (g : Nat) (t : LC) :
    parseVal (g + 1) ('-' :: t) = parseNumFrom ('-' :: t) := rfl

theorem parseVal_vdigit (g : Nat) (d : Nat) (t : LC) :
    parseVal (g + 1) (digitChar d :: t) = parseNumFrom (digitChar d :: t) := by
  unfold digitChar
  split <;> rfl

theorem parseMembers_vstep (g : Nat) (cs : LC) :
    parseMembers (g + 1) ('"' :: cs) =
      (match parseStrBody g cs with
       | some (k, r1) =>
         match skipWs r1 with
         | ':' :: r2 =>
           match parseVal g r2 with
           | some (v, r3) =>
             match skipWs r3 with
             | ',' :: r4 =>
               match parseMembers g r4 with
               | some (kvs, r5) => some ((k, v) :: kvs, r5)
               | none => none
             | '}' :: r4 => some ([(k, v)], r4)
             | _ => none
           | none => none
         | _ => none
       | none => none) := rfl

theorem parseElems_vstep (g : Nat) (s : LC) :
    parseElems (g + 1) s =
      (match parseVal g s with
       | some (v, r) =>
         match skipWs r with
         | ',' :: r2 =>
           match parseElems g r2 with
           | some (vs, r3) => some (v :: vs, r3)
           | none => none
         | ']' :: r2 => some ([v], r2)
         | _ => none
       | none => none) := rfl

theorem len_dumpStr (s : LC) : (dumpStr s).length = (escL s).length + 2 := by
  simp [dumpStr]

theorem len_dumpsV_str (s : LC) :
    (dumpsV (.str s)).length = (escL s).length + 2 := by
  simp [dumpsV, dumpStr]

theorem len_dumpsV_arr (xs : List Json) :
    (dumpsV (.arr xs)).length = (dumpsList xs).length + 2 := by
  simp [dumpsV]

theorem len_dumpsV_obj (ms : List (LC × Json)) :
    (dumpsV (.obj ms)).length = (dumpsMems ms).length + 2 := by
  simp [dumpsV]

theorem len_dumpsList_single (x : Json) :
    (dumpsList [x]).length = (dumpsV x).length := rfl

theorem len_dumpsList_cons2 (x y : Json) (ys : List Json) :
    (dumpsList (x :: y :: ys)).length
      = (dumpsV x).length + 2 + (dumpsList (y :: ys)).length := by
  simp [dumpsList]
  omega

theorem len_dumpsMems_single (k : LC) (v : Json) :
    (dumpsMems [(k, v)]).length = (escL k).length + 4 + (dumpsV v).length := by
  simp [dumpsMems, dumpStr]
  omega

theorem len_dumpsMems_cons2 (k : LC) (v : Json) (m : LC × Json)
    (ms : List (LC × Json)) :
    (dumpsMems ((k, v) :: m :: ms)).length
      = (escL k).length + 4 + (dumpsV v).length + 2
        + (dumpsMems (m :: ms)).length := by
  simp [dumpsMems, dumpStr]
  omega

theorem dumpsV_len_pos (v : Json) : 1 ≤ (dumpsV v).length := by
  cases v with
  | null => decide
  | bool b => cases b <;> decide
  | num n =>
    by_cases hn : n < 0
    · simp [dumpsV, intChars, hn]
    · have := natChars_ne_nil n.toNat
      simp [dumpsV, intChars, hn]
      exact List.length_pos.mpr this
  | str s => rw [len_dumpsV_str]; omega
  | arr xs => rw [len_dumpsV_arr]; omega
  | obj ms => rw [len_dumpsV_obj]; omega

theorem dumpsV_head (v : Json) :
    ∃ c t, dumpsV v = c :: t ∧ jWs c = false ∧ (c == ']') = false ∧
      (c == '}') = false := by
  cases v with
  | null => exact ⟨'n', _, rfl, by decide, by decide, by decide⟩
  | bool b =>
    cases b
    · exact ⟨'f', _, rfl, by decide, by decide, by decide⟩
    · exact ⟨'t', _, rfl, by decide, by decide, by decide⟩
  | num n =>
    by_cases hn : n < 0
    · refine ⟨'-', natChars n.natAbs, ?_, by decide, by decide, by decide⟩
      simp [dumpsV, intChars, hn]
    · obtain ⟨d, t, ht⟩ := natChars_head n.toNat
      refine ⟨digitChar d, t, ?_, digitChar_jWs d, digitChar_ne d ']' (by decide),
        digitChar_ne d '}' (by decide)⟩
      simp [dumpsV, intChars, hn, ht]
  | str s => exact ⟨'"', escL s ++ ['"'], rfl, by decide, by decide, by decide⟩
  | arr xs => exact ⟨'[', dumpsList xs ++ [']'], rfl, by decide, by decide, by decide⟩
  | obj ms => exact ⟨'{', dumpsMems ms ++ ['}'], rfl, by decide, by decide, by decide⟩

/-- Whitespace-only padding. -/
def allJWs (sp : LC) : Prop := ∀ c ∈ sp, jWs c = true

/-- A number must not be followed directly by another digit (maximal-munch
separation); vacuous for the other value forms. -/
def numSep : Json → LC → Prop
  | .num _, rest => ∀ c, rest.head? = some c → c.isDigit = false
  | _, _ => True

theorem numSep_of_head (v : Json) {c : Char} (t : LC) (hc : c.isDigit = false) :
    numSep v (c :: t) := by
  cases v with
  | num n =>
    simp only [numSep]
    intro c' hc'
    simp at hc'
    rwa [← hc']
  | null => trivial
  | bool b => trivial
  | str s => trivial
  | arr xs => trivial
  | obj ms => trivial

theorem numSep_nil (v : Json) : numSep v [] := by
  cases v with
  | num n =>
    simp only [numSep]
    intro c' hc'
    cases hc'
  | null => trivial
  | bool b => trivial
  | str s => trivial
  | arr xs => trivial
  | obj ms => trivial

theorem parse_dumps_main : ∀ f : Nat,
    (∀ (v : Json) (sp rest : LC), allJWs sp → numSep v rest →
      (dumpsV v).length < f →
      parseVal f (sp ++ dumpsV v ++ rest) = some (v, rest)) ∧
    (∀ (ms : List (LC × Json)) (sp rest : LC), ms ≠ [] → allJWs sp →
      (dumpsMems ms).length + 1 < f →
      parseMembers f (sp ++ dumpsMems ms ++ '}' :: rest) = some (ms, rest)) ∧
    (∀ (xs : List Json) (sp rest : LC), xs ≠ [] → allJWs sp →
      (dumpsList xs).length + 1 < f →
      parseElems f (sp ++ dumpsList xs ++ ']' :: rest) = some (xs, rest)) := by
  intro f
  induction f using Nat.strong_induction_on with
  | _ f IH =>
    refine ⟨?_, ?_, ?_⟩
    · -- parseVal on a serialized value
      intro v sp rest hsp hns hf
      have hpos := dumpsV_len_pos v
      obtain ⟨g, rfl⟩ : ∃ g, f = g + 1 := ⟨f - 1, by omega⟩
      rw [parseVal_skipWs, List.append_assoc, skipWs_ws_append sp _ hsp]
      cases v with
      | null =>
        rw [show dumpsV .null ++ rest = 'n' :: 'u' :: 'l' :: 'l' :: rest from rfl]
        rw [skipWs_cons_neg _ (by decide)]
        exact parseVal_vnull g rest
      | bool b =>
        cases b
        · rw [show dumpsV (.bool false) ++ rest
            = 'f' :: 'a' :: 'l' :: 's' :: 'e' :: rest from rfl]
          rw [skipWs_cons_neg _ (by decide)]
          exact parseVal_vfalse g rest
        · rw [show dumpsV (.bool true) ++ rest
            = 't' :: 'r' :: 'u' :: 'e' :: rest from rfl]
          rw [skipWs_cons_neg _ (by decide)]
          exact parseVal_vtrue g rest
      | num n =>
        simp only [numSep] at hns
        by_cases hn : n < 0
        · have hi : dumpsV (.num n) = '-' :: natChars n.natAbs := by
            simp [dumpsV, intChars, hn]
          rw [hi, List.cons_append, skipWs_cons_neg _ (by decide), parseVal_vneg]
          rw [show '-' :: (natChars n.natAbs ++ rest) = intChars n ++ rest by
            simp [intChars, hn]]
          exact parseNumFrom_intChars n rest hns
        · have hi : dumpsV (.num n) = natChars n.toNat := by
            simp [dumpsV, intChars, hn]
          obtain ⟨d, t, ht⟩ := natChars_head n.toNat
          rw [hi, ht, List.cons_append, skipWs_cons_neg _ (digitChar_jWs d),
            parseVal_vdigit]
          rw [show digitChar d :: (t ++ rest) = natChars n.toNat ++ rest by
            rw [ht]; simp]
          rw [show natChars n.toNat = intChars n by simp [intChars, hn]]
          exact parseNumFrom_intChars n rest hns
      | str s =>
        rw [show dumpsV (.str s) ++ rest = '"' :: (escL s ++ '"' :: rest) by
          simp [dumpsV, dumpStr]]
        rw [skipWs_cons_neg _ (by decide), parseVal_vstr]
        rw [len_dumpsV_str] at hf
        rw [parseStrBody_escL g s rest (by omega)]
      | arr xs =>
        rw [show dumpsV (.arr xs) ++ rest = '[' :: (dumpsList xs ++ ']' :: rest) by
          simp [dumpsV]]
        rw [skipWs_cons_neg _ (by decide), parseVal_varr]
        rw [len_dumpsV_arr] at hf
        cases xs with
        | nil =>
          rw [show dumpsList ([] : List Json) ++ ']' :: rest = ']' :: rest from rfl]
          rw [skipWs_cons_neg _ (by decide)]
          simp [headIs]
        | cons x xs' =>
          obtain ⟨c, t, hct, hws, hbr, _⟩ := dumpsV_head x
          have hdec : ∃ tl, dumpsList (x :: xs') = dumpsV x ++ tl := by
            cases xs' with
            | nil => exact ⟨[], by simp [dumpsList]⟩
            | cons y ys => exact ⟨',' :: ' ' :: dumpsList (y :: ys), rfl⟩
          obtain ⟨tl, htl⟩ := hdec
          have hshape : dumpsList (x :: xs') ++ ']' :: rest
              = c :: (t ++ tl ++ ']' :: rest) := by
            rw [htl, hct]
            simp
          rw [hshape, skipWs_cons_neg _ hws]
          rw [show headIs ']' (c :: (t ++ tl ++ ']' :: rest)) = false by
            simp [headIs]
            intro hc
            rw [hc] at hbr
            simp at hbr]
          simp only [Bool.false_eq_true, if_false]
          rw [← hshape]
          have := (IH g (by omega)).2.2 (x :: xs') [] rest (by simp) (by
            intro c hc; cases hc) (by omega)
          simp only [List.nil_append] at this
          rw [this]
      | obj ms =>
        rw [show dumpsV (.obj ms) ++ rest = '{' :: (dumpsMems ms ++ '}' :: rest) by
          simp [dumpsV]]
        rw [skipWs_cons_neg _ (by decide), parseVal_vobj]
        rw [len_dumpsV_obj] at hf
        cases ms with
        | nil =>
          rw [show dumpsMems ([] : List (LC × Json)) ++ '}' :: rest
            = '}' :: rest from rfl]
          rw [skipWs_cons_neg _ (by decide)]
          simp [headIs]
        | cons kv ms' =>
          obtain ⟨k, v⟩ := kv
          have hdec : ∃ tl, dumpsMems ((k, v) :: ms')
              = '"' :: (escL k ++ '"' :: ':' :: ' ' :: dumpsV v ++ tl) := by
            cases ms' with
            | nil => exact ⟨[], by simp [dumpsMems, dumpStr]⟩
            | cons m ms'' =>
              refine ⟨',' :: ' ' :: dumpsMems (m :: ms''), ?_⟩
              simp [dumpsMems, dumpStr]
          obtain ⟨tl, htl⟩ := hdec
          have hshape : dumpsMems ((k, v) :: ms') ++ '}' :: rest
              = '"' :: ((escL k ++ '"' :: ':' :: ' ' :: dumpsV v ++ tl)
                ++ '}' :: rest) := by
            rw [htl]; simp
          rw [hshape, skipWs_cons_neg _ (by decide)]
          rw [show headIs '}' ('"' :: ((escL k ++ '"' :: ':' :: ' ' :: dumpsV v ++ tl)
            ++ '}' :: rest)) = false by simp [headIs]]
          simp only [Bool.false_eq_true, if_false]
          rw [← hshape]
          have := (IH g (by omega)).2.1 ((k, v) :: ms') [] rest (by simp) (by
            intro c hc; cases hc) (by omega)
          simp only [List.nil_append] at this
          rw [this]
    · -- parseMembers on serialized members followed by the closing brace
      intro ms sp rest hne hsp hf
      obtain ⟨⟨k, v⟩, ms', rfl⟩ : ∃ kv ms', ms = kv :: ms' := by
        cases ms with
        | nil => exact absurd rfl hne
        | cons kv ms' => exact ⟨kv, ms', rfl⟩
      obtain ⟨g, rfl⟩ : ∃ g, f = g + 1 := ⟨f - 1, by omega⟩
      rw [parseMembers_skipWs, List.append_assoc, skipWs_ws_append sp _ hsp]
      have hvpos := dumpsV_len_pos v
      cases ms' with
      | nil =>
        rw [len_dumpsMems_single] at hf
        have hshape : dumpsMems [(k, v)] ++ '}' :: rest
            = '"' :: (escL k ++ '"' :: (':' :: ' ' :: (dumpsV v ++ '}' :: rest))) := by
          simp [dumpsMems, dumpStr]
        rw [hshape, skipWs_cons_neg _ (by decide), parseMembers_vstep]
        have hkey := parseStrBody_escL g k
          (':' :: ' ' :: (dumpsV v ++ '}' :: rest)) (by omega)
        have hval := (IH g (by omega)).1 v [' '] ('}' :: rest)
          (by intro c hc; simp at hc; rw [hc]; rfl)
          (numSep_of_head v _ (by decide))
          (by omega)
        simp only [List.singleton_append, List.cons_append, List.nil_append] at hval
        simp only [hkey, skipWs_cons_neg _ (by decide : jWs ':' = false), hval,
          skipWs_cons_neg _ (by decide : jWs '}' = false)]
      | cons m ms'' =>
        rw [len_dumpsMems_cons2] at hf
        have hshape : dumpsMems ((k, v) :: m :: ms'') ++ '}' :: rest
            = '"' :: (escL k ++ '"' :: (':' :: ' ' :: (dumpsV v
              ++ ',' :: (' ' :: (dumpsMems (m :: ms'') ++ '}' :: rest))))) := by
          simp [dumpsMems, dumpStr]
        rw [hshape, skipWs_cons_neg _ (by decide), parseMembers_vstep]
        have hkey := parseStrBody_escL g k
          (':' :: ' ' :: (dumpsV v ++ ',' :: (' ' :: (dumpsMems (m :: ms'')
            ++ '}' :: rest)))) (by omega)
        have hval := (IH g (by omega)).1 v [' ']
          (',' :: (' ' :: (dumpsMems (m :: ms'') ++ '}' :: rest)))
          (by intro c hc; simp at hc; rw [hc]; rfl)
          (numSep_of_head v _ (by decide))
          (by omega)
        simp only [List.singleton_append, List.cons_append, List.nil_append] at hval
        have hrec := (IH g (by omega)).2.1 (m :: ms'') [' '] rest (by simp)
          (by intro c hc; simp at hc; rw [hc]; rfl) (by omega)
        simp only [List.singleton_append, List.cons_append, List.nil_append] at hrec
        simp only [hkey, skipWs_cons_neg _ (by decide : jWs ':' = false), hval,
          skipWs_cons_neg _ (by decide : jWs ',' = false), hrec]
    · -- parseElems on serialized elements followed by the closing bracket
      intro xs sp rest hne hsp hf
      obtain ⟨x, xs', rfl⟩ : ∃ x xs', xs = x :: xs' := by
        cases xs with
        | nil => exact absurd rfl hne
        | cons x xs' => exact ⟨x, xs', rfl⟩
      obtain ⟨g, rfl⟩ : ∃ g, f = g + 1 := ⟨f - 1, by omega⟩
      have hvpos := dumpsV_len_pos x
      rw [parseElems_vstep]
      cases xs' with
      | nil =>
        rw [len_dumpsList_single] at hf
        have hval := (IH g (by omega)).1 x sp (']' :: rest) hsp
          (numSep_of_head x _ (by decide))
          (by omega)
        rw [show sp ++ dumpsList [x] ++ ']' :: rest
          = sp ++ dumpsV x ++ ']' :: rest by simp [dumpsList]]
        simp only [hval, skipWs_cons_neg _ (by decide : jWs ']' = false)]
      | cons y ys =>
        rw [len_dumpsList_cons2] at hf
        have hval := (IH g (by omega)).1 x sp
          (',' :: (' ' :: (dumpsList (y :: ys) ++ ']' :: rest))) hsp
          (numSep_of_head x _ (by decide))
          (by omega)
        have hrec := (IH g (by omega)).2.2 (y :: ys) [' '] rest (by simp)
          (by intro c hc; simp at hc; rw [hc]; rfl) (by omega)
        simp only [List.singleton_append, List.cons_append, List.nil_append] at hrec
        rw [show sp ++ dumpsList (x :: y :: ys) ++ ']' :: rest
          = sp ++ dumpsV x ++ ',' :: (' ' :: (dumpsList (y :: ys)
            ++ ']' :: rest)) by simp [dumpsList]]
        simp only [hval, skipWs_cons_neg _ (by decide : jWs ',' = false), hrec]

/-- `json.loads` inverts `json.dumps`. -/
theorem jsonLoads_dumpsV (v : Json) : jsonLoads (dumpsV v) = some v := by
  unfold jsonLoads
  have h := (parse_dumps_main ((dumpsV v).length + 1)).1 v [] []
    (by intro c hc; cases hc) (numSep_nil v) (by omega)
  simp only [List.nil_append, List.append_nil] at h
  rw [h]
  rfl

/-! ## Lemmas: characters of serialized values, and the brace-depth scan. -/

/-- Printable-ASCII characters (the fragment on which `json.dumps` needs no
`\uXXXX` escapes). -/
def goodChar (c : Char) : Bool := 0x20 ≤ c.toNat && c.toNat ≤ 0x7E

/-- Printable-ASCII characters that the extraction pipeline treats as opaque
payload: no braces (brace-depth scan), no backtick (fences), no `<`
(think-markup removal). -/
def opaqueChar (c : Char) : Bool :=
  goodChar c && !(c == '{' || c == '}' || c == '`' || c == '<')

mutual

/-- All string content (keys and string values) of a JSON value satisfies the
character predicate `p`. -/
def jsonAll (p : Char → Bool) : Json → Bool
  | .str s => s.all p
  | .arr xs => jsonAllL p xs
  | .obj kvs => jsonAllM p kvs
  | _ => true

/-- List version of `jsonAll`. -/
def jsonAllL (p : Char → Bool) : List Json → Bool
  | [] => true
  | x :: xs => jsonAll p x && jsonAllL p xs

/-- Member-list version of `jsonAll`. -/
def jsonAllM (p : Char → Bool) : List (LC × Json) → Bool
  | [] => true
  | (k, v) :: ms => k.all p && jsonAll p v && jsonAllM p ms

end


mutual

/-- Node-count measure for induction over nested `Json` values. -/
def jsize : Json → Nat
  | .null => 1
  | .bool _ => 1
  | .num _ => 1
  | .str _ => 1
  | .arr xs => 1 + jsizeL xs
  | .obj ms => 1 + jsizeM ms

/-- List version of `jsize`. -/
def jsizeL : List Json → Nat
  | [] => 1
  | x :: xs => jsize x + jsizeL xs

/-- Member-list version of `jsize`. -/
def jsizeM : List (LC × Json) → Nat
  | [] => 1
  | (_, v) :: ms => jsize v + jsizeM ms

end

theorem jsize_pos (v : Json) : 1 ≤ jsize v := by
  cases v <;> simp [jsize]

theorem jsizeL_pos (xs : List Json) : 1 ≤ jsizeL xs := by
  cases xs with
  | nil => simp [jsizeL]
  | cons x xs => have := jsize_pos x; simp [jsizeL]; omega

theorem jsizeM_pos (ms : List (LC × Json)) : 1 ≤ jsizeM ms := by
  cases ms with
  | nil => simp [jsizeM]
  | cons m ms =>
    obtain ⟨k, v⟩ := m
    have := jsize_pos v
    simp [jsizeM]
    omega

/-- Characters that cannot disturb think-markup removal or fence
unwrapping. -/
def notFence (c : Char) : Bool := !(c == '<' || c == '`')

/-- Characters that additionally cannot disturb the brace-depth scan. -/
def okC (c : Char) : Bool :=
  !(c == '<' || c == '`' || c == '{' || c == '}')

theorem opaqueChar_okC {c : Char} (h : opaqueChar c = true) : okC c = true := by
  simp only [opaqueChar, goodChar, Bool.and_eq_true, Bool.not_eq_true',
    Bool.or_eq_false_iff] at h
  simp [okC, h.2]

theorem okC_notFence {c : Char} (h : okC c = true) : notFence c = true := by
  simp only [okC, Bool.not_eq_true', Bool.or_eq_false_iff] at h
  simp [notFence, h.1.1.1, h.1.1.2]

theorem escL_okC (s : LC) (h : s.all opaqueChar = true) :
    (escL s).all okC = true := by
  induction s with
  | nil => rfl
  | cons c cs ih =>
    simp only [List.all_cons, Bool.and_eq_true] at h
    have hesc : escL (c :: cs) = escChar c ++ escL cs := rfl
    rw [hesc, List.all_append, ih h.2, Bool.and_true]
    unfold escChar
    by_cases h1 : c == '"'
    · simp [h1, okC]
    · by_cases h2 : c == '\\'
      · simp [h1, h2, okC]
      · simp only [h1, h2, Bool.false_eq_true, if_false]
        simp [opaqueChar_okC h.1]

theorem digit_ne_of (c a : Char) (hd : c.isDigit = true) (ha : a.isDigit = false) :
    (c == a) = false := by
  cases h : c == a
  · rfl
  · rw [beq_iff_eq.mp h] at hd
    rw [hd] at ha
    cases ha

theorem natChars_okC (n : Nat) : (natChars n).all okC = true := by
  rw [List.all_eq_true]
  intro c hc
  have hd := natChars_all_digit n c hc
  simp [okC, digit_ne_of c '<' hd (by decide), digit_ne_of c '`' hd (by decide),
    digit_ne_of c '{' hd (by decide), digit_ne_of c '}' hd (by decide)]

theorem intChars_okC (n : Int) : (intChars n).all okC = true := by
  unfold intChars
  by_cases h : n < 0
  · simp [h, natChars_okC, okC]
  · simp [h, natChars_okC]

theorem dumpStr_okC (s : LC) (h : s.all opaqueChar = true) :
    (dumpStr s).all okC = true := by
  simp [dumpStr, List.all_append, escL_okC s h, okC]

theorem all_weaken {p q : Char → Bool} (l : LC) (hpq : ∀ c, p c = true → q c = true)
    (h : l.all p = true) : l.all q = true := by
  rw [List.all_eq_true] at h ⊢
  exact fun c hc => hpq c (h c hc)

theorem dumps_notFence_main : ∀ n : Nat,
    (∀ v, jsize v ≤ n → jsonAll opaqueChar v = true →
      (dumpsV v).all notFence = true) ∧
    (∀ xs, jsizeL xs ≤ n → jsonAllL opaqueChar xs = true →
      (dumpsList xs).all notFence = true) ∧
    (∀ ms, jsizeM ms ≤ n → jsonAllM opaqueChar ms = true →
      (dumpsMems ms).all notFence = true) := by
  intro n
  induction n using Nat.strong_induction_on with
  | _ n IH =>
    refine ⟨?_, ?_, ?_⟩
    · intro v hs hop
      cases v with
      | null => rfl
      | bool b => cases b <;> rfl
      | num m =>
        exact all_weaken _ (fun c => okC_notFence) (intChars_okC m)
      | str s =>
        simp only [jsonAll] at hop
        exact all_weaken _ (fun c => okC_notFence) (dumpStr_okC s hop)
      | arr xs =>
        simp only [jsonAll] at hop
        simp only [jsize] at hs
        have hlp := jsizeL_pos xs
        have hx := (IH (n - 1) (by omega)).2.1 xs (by omega) hop
        rw [show dumpsV (.arr xs) = '[' :: dumpsList xs ++ [']'] from rfl]
        simp [notFence, List.all_append, hx]
      | obj ms =>
        simp only [jsonAll] at hop
        simp only [jsize] at hs
        have hmp := jsizeM_pos ms
        have hm := (IH (n - 1) (by omega)).2.2 ms (by omega) hop
        rw [show dumpsV (.obj ms) = '{' :: dumpsMems ms ++ ['}'] from rfl]
        simp [notFence, List.all_append, hm]
    · intro xs hs hop
      cases xs with
      | nil => rfl
      | cons x xs' =>
        simp only [jsonAllL, Bool.and_eq_true] at hop
        simp only [jsizeL] at hs
        have hps := jsize_pos x
        have hlp := jsizeL_pos xs'
        have hx := (IH (n - 1) (by omega)).1 x (by omega) hop.1
        cases xs' with
        | nil => simpa [dumpsList] using hx
        | cons y ys =>
          have hrest := (IH (n - 1) (by omega)).2.1 (y :: ys) (by
            simp only [jsizeL] at hs ⊢
            omega) hop.2
          rw [show dumpsList (x :: y :: ys)
            = dumpsV x ++ ',' :: ' ' :: dumpsList (y :: ys) from rfl]
          simp [notFence, List.all_append, hx, hrest]
    · intro ms hs hop
      cases ms with
      | nil => rfl
      | cons kv ms' =>
        obtain ⟨k, v⟩ := kv
        simp only [jsonAllM, Bool.and_eq_true] at hop
        simp only [jsizeM] at hs
        have hps := jsize_pos v
        have hmp := jsizeM_pos ms'
        have hk : (dumpStr k).all notFence = true :=
          all_weaken _ (fun c => okC_notFence) (dumpStr_okC k hop.1.1)
        have hv := (IH (n - 1) (by omega)).1 v (by omega) hop.1.2
        cases ms' with
        | nil =>
          rw [show dumpsMems [(k, v)] = dumpStr k ++ ':' :: ' ' :: dumpsV v from rfl]
          simp [notFence, List.all_append, hk, hv]
        | cons m ms'' =>
          have hrest := (IH (n - 1) (by omega)).2.2 (m :: ms'') (by
            simp only [jsizeM] at hs ⊢
            omega) hop.2
          rw [show dumpsMems ((k, v) :: m :: ms'')
            = dumpStr k ++ ':' :: ' ' :: dumpsV v ++ ',' :: ' ' :: dumpsMems (m :: ms'')
            from rfl]
          simp [notFence, List.all_append, hk, hv, hrest]

/-- All string content of an opaque value serializes without `<` or backtick
characters. -/
theorem dumpsV_notFence (v : Json) (h : jsonAll opaqueChar v = true) :
    (dumpsV v).all notFence = true :=
  (dumps_notFence_main (jsize v)).1 v (by omega) h

theorem notFence_ne_lt {s : LC} (h : s.all notFence = true) :
    ∀ c ∈ s, c ≠ '<' := by
  intro c hc he
  have := List.all_eq_true.mp h c hc
  rw [he] at this
  cases this

theorem notFence_ne_bt {s : LC} (h : s.all notFence = true) :
    ∀ c ∈ s, c ≠ '`' := by
  intro c hc he
  have := List.all_eq_true.mp h c hc
  rw [he] at this
  cases this

theorem mem_of_mem_dropWhile {p : Char → Bool} {c : Char} {l : LC}
    (h : c ∈ l.dropWhile p) : c ∈ l := by
  induction l with
  | nil => simp at h
  | cons x xs ih =>
    rw [List.dropWhile_cons] at h
    by_cases hx : p x
    · simp only [hx, if_true] at h
      exact List.mem_cons_of_mem x (ih h)
    · simp only [hx, Bool.false_eq_true, if_false] at h
      exact h

/-- A brace-free segment advances the depth scan without changing the
depth. -/
theorem scan_skip_seg (seg : LC) (h : ∀ c ∈ seg, c ≠ '{' ∧ c ≠ '}') :
    ∀ (cs : LC) (d : Int) (i : Nat),
      braceScanGo (seg ++ cs) d i = braceScanGo cs d (i + seg.length) := by
  induction seg with
  | nil => intro cs d i; simp
  | cons c t ih =>
    intro cs d i
    have hc := h c (by simp)
    have h1 : (c == '{') = false := by
      cases hh : c == '{'
      · rfl
      · exact absurd (beq_iff_eq.mp hh) hc.1
    have h2 : (c == '}') = false := by
      cases hh : c == '}'
      · rfl
      · exact absurd (beq_iff_eq.mp hh) hc.2
    simp only [List.cons_append, braceScanGo, h1, h2, Bool.false_eq_true, if_false]
    rw [show t.append cs = t ++ cs from rfl,
      ih (fun c hc => h c (by simp [hc])) cs d (i + 1)]
    congr 1
    simp only [List.length_cons]
    omega

theorem scan_skip_okC (seg : LC) (h : seg.all okC = true) :
    ∀ (cs : LC) (d : Int) (i : Nat),
      braceScanGo (seg ++ cs) d i = braceScanGo cs d (i + seg.length) := by
  refine scan_skip_seg seg ?_
  intro c hc
  have := List.all_eq_true.mp h c hc
  simp only [okC, Bool.not_eq_true', Bool.or_eq_false_iff] at this
  constructor
  · intro he
    rw [he] at this
    simp at this
  · intro he
    rw [he] at this
    simp at this

theorem scan_dumps_main : ∀ n : Nat,
    (∀ v, jsize v ≤ n → jsonAll opaqueChar v = true →
      ∀ (cs : LC) (d : Int) (i : Nat), 1 ≤ d →
        braceScanGo (dumpsV v ++ cs) d i = braceScanGo cs d (i + (dumpsV v).length)) ∧
    (∀ xs, jsizeL xs ≤ n → jsonAllL opaqueChar xs = true →
      ∀ (cs : LC) (d : Int) (i : Nat), 1 ≤ d →
        braceScanGo (dumpsList xs ++ cs) d i
          = braceScanGo cs d (i + (dumpsList xs).length)) ∧
    (∀ ms, jsizeM ms ≤ n → jsonAllM opaqueChar ms = true →
      ∀ (cs : LC) (d : Int) (i : Nat), 1 ≤ d →
        braceScanGo (dumpsMems ms ++ cs) d i
          = braceScanGo cs d (i + (dumpsMems ms).length)) := by
  intro n
  induction n using Nat.strong_induction_on with
  | _ n IH =>
    refine ⟨?_, ?_, ?_⟩
    · intro v hs hop cs d i hd
      cases v with
      | null => exact scan_skip_okC _ (by decide) cs d i
      | bool b => cases b <;> exact scan_skip_okC _ (by decide) cs d i
      | num m => exact scan_skip_okC _ (intChars_okC m) cs d i
      | str s =>
        simp only [jsonAll] at hop
        exact scan_skip_okC _ (dumpStr_okC s hop) cs d i
      | arr xs =>
        simp only [jsonAll] at hop
        simp only [jsize] at hs
        have hlp := jsizeL_pos xs
        have hx := (IH (n - 1) (by omega)).2.1 xs (by omega) hop
        rw [show dumpsV (.arr xs) ++ cs = '[' :: (dumpsList xs ++ (']' :: cs)) by
          simp [dumpsV]]
        simp only [braceScanGo, (by decide : (('[' : Char) == '{') = false),
          (by decide : (('[' : Char) == '}') = false), Bool.false_eq_true, if_false]
        rw [hx (']' :: cs) d (i + 1) hd]
        simp only [braceScanGo, (by decide : ((']' : Char) == '{') = false),
          (by decide : ((']' : Char) == '}') = false), Bool.false_eq_true, if_false]
        congr 1
        rw [len_dumpsV_arr]
        omega
      | obj ms =>
        simp only [jsonAll] at hop
        simp only [jsize] at hs
        have hmp := jsizeM_pos ms
        have hm := (IH (n - 1) (by omega)).2.2 ms (by omega) hop
        rw [show dumpsV (.obj ms) ++ cs = '{' :: (dumpsMems ms ++ ('}' :: cs)) by
          simp [dumpsV]]
        simp only [braceScanGo, (by decide : (('{' : Char) == '{') = true), if_true]
        rw [hm ('}' :: cs) (d + 1) (i + 1) (by omega)]
        simp only [braceScanGo, (by decide : (('}' : Char) == '{') = false),
          (by decide : (('}' : Char) == '}') = true), Bool.false_eq_true, if_false,
          if_true]
        rw [show (d + 1 - 1 == 0) = false by rw [beq_eq_false_iff_ne]; omega]
        simp only [Bool.false_eq_true, if_false]
        have hsub : d + 1 - 1 = d := by omega
        rw [hsub]
        congr 1
        rw [len_dumpsV_obj]
        omega
    · intro xs hs hop cs d i hd
      cases xs with
      | nil => simp [dumpsList]
      | cons x xs' =>
        simp only [jsonAllL, Bool.and_eq_true] at hop
        simp only [jsizeL] at hs
        have hps := jsize_pos x
        have hlp := jsizeL_pos xs'
        have hx := (IH (n - 1) (by omega)).1 x (by omega) hop.1
        cases xs' with
        | nil =>
          rw [show dumpsList [x] = dumpsV x from rfl]
          exact hx cs d i hd
        | cons y ys =>
          have hrest := (IH (n - 1) (by omega)).2.1 (y :: ys) (by
            simp only [jsizeL] at hs ⊢
            omega) hop.2
          rw [show dumpsList (x :: y :: ys) ++ cs
            = dumpsV x ++ (',' :: ' ' :: (dumpsList (y :: ys) ++ cs)) by
            simp [dumpsList]]
          rw [hx _ d i hd]
          simp only [braceScanGo, (by decide : ((',' : Char) == '{') = false),
            (by decide : ((',' : Char) == '}') = false),
            (by decide : ((' ' : Char) == '{') = false),
            (by decide : ((' ' : Char) == '}') = false), Bool.false_eq_true, if_false]
          rw [hrest cs d _ hd]
          congr 1
          rw [len_dumpsList_cons2]
          omega
    · intro ms hs hop cs d i hd
      cases ms with
      | nil => simp [dumpsMems]
      | cons kv ms' =>
        obtain ⟨k, v⟩ := kv
        simp only [jsonAllM, Bool.and_eq_true] at hop
        simp only [jsizeM] at hs
        have hps := jsize_pos v
        have hmp := jsizeM_pos ms'
        have hv := (IH (n - 1) (by omega)).1 v (by omega) hop.1.2
        have hkseg := scan_skip_okC (dumpStr k) (dumpStr_okC k hop.1.1)
        cases ms' with
        | nil =>
          rw [show dumpsMems [(k, v)] ++ cs
            = dumpStr k ++ (':' :: ' ' :: (dumpsV v ++ cs)) by simp [dumpsMems]]
          rw [hkseg _ d i]
          simp only [braceScanGo, (by decide : ((':' : Char) == '{') = false),
            (by decide : ((':' : Char) == '}') = false),
            (by decide : ((' ' : Char) == '{') = false),
            (by decide : ((' ' : Char) == '}') = false), Bool.false_eq_true, if_false]
          rw [hv cs d _ hd]
          congr 1
          rw [len_dumpsMems_single, len_dumpStr]
          omega
        | cons m ms'' =>
          have hrest := (IH (n - 1) (by omega)).2.2 (m :: ms'') (by
            simp only [jsizeM] at hs ⊢
            omega) hop.2
          rw [show dumpsMems ((k, v) :: m :: ms'') ++ cs
            = dumpStr k ++ (':' :: ' ' :: (dumpsV v
              ++ (',' :: ' ' :: (dumpsMems (m :: ms'') ++ cs)))) by
            simp [dumpsMems]]
          rw [hkseg _ d i]
          simp only [braceScanGo, (by decide : ((':' : Char) == '{') = false),
            (by decide : ((':' : Char) == '}') = false),
            (by decide : ((' ' : Char) == '{') = false),
            (by decide : ((' ' : Char) == '}') = false), Bool.false_eq_true, if_false]
          rw [hv _ d _ hd]
          simp only [braceScanGo, (by decide : ((',' : Char) == '{') = false),
            (by decide : ((',' : Char) == '}') = false),
            (by decide : ((' ' : Char) == '{') = false),
            (by decide : ((' ' : Char) == '}') = false), Bool.false_eq_true, if_false]
          rw [hrest cs d _ hd]
          congr 1
          rw [len_dumpsMems_cons2, len_dumpStr]
          omega

/-- The brace-depth scan of a serialized opaque object first returns to zero
exactly at its final character. -/
theorem braceScan_obj (ms : List (LC × Json)) (h : jsonAllM opaqueChar ms = true) :
    braceScanGo (dumpsV (.obj ms)) 0 0 = some (dumpsV (.obj ms)).length := by
  rw [show dumpsV (.obj ms) = '{' :: (dumpsMems ms ++ ['}']) by simp [dumpsV]]
  simp only [braceScanGo, (by decide : (('{' : Char) == '{') = true), if_true]
  rw [show (0 : Int) + 1 = 1 from rfl, show (0 : Nat) + 1 = 1 from rfl]
  rw [(scan_dumps_main (jsizeM ms)).2.2 ms (by omega) h ['}'] 1 1 (by omega)]
  simp only [braceScanGo, (by decide : (('}' : Char) == '{') = false),
    (by decide : (('}' : Char) == '}') = true), Bool.false_eq_true, if_false, if_true]
  rw [show ((1 : Int) - 1 == 0) = true by decide]
  simp only [if_true]
  congr 1
  simp
  omega

/-! ## Lemmas: isolation of the fenced JSON span. -/

/-- The model-response shape of C1: a `<think>` block, then prose, then the
JSON serialization inside a ```` ```json ```` fence. -/
def wrapText (body prose j : LC) : LC :=
  thinkOpen ++ body ++ thinkClose ++ prose ++ fenceJson ++ '\n' :: j ++ '\n' :: fence3


theorem drop_len_append (a b : LC) : (a ++ b).drop a.length = b := by simp

theorem take_len_append (a b : LC) : (a ++ b).take a.length = a := by simp

theorem removeThinkGo_none (f : Nat) (s : LC) (h : ∀ c ∈ s, c ≠ '<') :
    removeThinkGo f s = s := by
  cases f with
  | zero => rfl
  | succ f =>
    have hto : thinkOpen = '<' :: ('t' :: 'h' :: 'i' :: 'n' :: 'k' :: '>' :: []) := rfl
    simp only [removeThinkGo, hto, findSub_none s h]

/-- Removing think markup from a single well-delimited block keeps exactly the
text after the block. -/
theorem removeThink_block (body rest : LC) (hb : ∀ c ∈ body, c ≠ '<')
    (hr : ∀ c ∈ rest, c ≠ '<') :
    removeThink (thinkOpen ++ body ++ thinkClose ++ rest) = rest := by
  have h7 : thinkOpen.length = 7 := rfl
  have h8 : thinkClose.length = 8 := rfl
  obtain ⟨f, hf⟩ : ∃ f, (thinkOpen ++ body ++ thinkClose ++ rest).length = f + 1 :=
    ⟨(thinkOpen ++ body ++ thinkClose ++ rest).length - 1, by
      simp [List.length_append, h7, h8]
      omega⟩
  unfold removeThink
  rw [hf]
  have h1 : findSub (thinkOpen ++ body ++ thinkClose ++ rest) thinkOpen
      = some 0 := by
    unfold findSub
    apply findSubGo_of_isPre
    rw [show thinkOpen ++ body ++ thinkClose ++ rest
      = thinkOpen ++ (body ++ thinkClose ++ rest) by simp]
    exact isPreOf_append_self _ _
  have h2 : (thinkOpen ++ body ++ thinkClose ++ rest).drop (0 + 7)
      = body ++ thinkClose ++ rest := by
    rw [show thinkOpen ++ body ++ thinkClose ++ rest
      = thinkOpen ++ (body ++ thinkClose ++ rest) by simp]
    rw [show 0 + 7 = thinkOpen.length from rfl]
    exact drop_len_append _ _
  have htc : thinkClose
      = '<' :: ('/' :: 't' :: 'h' :: 'i' :: 'n' :: 'k' :: '>' :: []) := rfl
  have h3 : findSub (body ++ thinkClose ++ rest) thinkClose
      = some body.length := by
    rw [htc]
    exact findSub_boundary body rest hb
  have h4 : (thinkOpen ++ body ++ thinkClose ++ rest).drop (0 + 7 + body.length + 8)
      = rest := by
    rw [show thinkOpen ++ body ++ thinkClose ++ rest
      = (thinkOpen ++ body ++ thinkClose) ++ rest by simp]
    rw [show 0 + 7 + body.length + 8 = (thinkOpen ++ body ++ thinkClose).length by
      simp [List.length_append, h7, h8]
      omega]
    exact drop_len_append _ _
  simp only [removeThinkGo, h1, h2, h3, h4, removeThinkGo_none f rest hr]
  simp

/-- Fence unwrapping of prose followed by a ```` ```json ```` block takes
exactly the fence interior, stripped. -/
theorem fenceStep_wrap (p J : LC) (hp : ∀ c ∈ p, c ≠ '`') (hJ : ∀ c ∈ J, c ≠ '`') :
    fenceStep (p ++ (fenceJson ++ ('\n' :: J) ++ ('\n' :: fence3)))
      = stripChars ('\n' :: J ++ ['\n']) := by
  have hfj : fenceJson = '`' :: ('`' :: '`' :: 'j' :: 's' :: 'o' :: 'n' :: []) := rfl
  have hf3 : fence3 = '`' :: ('`' :: '`' :: []) := rfl
  have h1 : findSub (p ++ (fenceJson ++ ('\n' :: J) ++ ('\n' :: fence3))) fenceJson
      = some p.length := by
    rw [show p ++ (fenceJson ++ ('\n' :: J) ++ ('\n' :: fence3))
      = p ++ fenceJson ++ (('\n' :: J) ++ ('\n' :: fence3)) by simp]
    rw [hfj]
    exact findSub_boundary p _ hp
  have h2 : (p ++ (fenceJson ++ ('\n' :: J) ++ ('\n' :: fence3))).drop (p.length + 7)
      = ('\n' :: J) ++ ('\n' :: fence3) := by
    rw [show p ++ (fenceJson ++ ('\n' :: J) ++ ('\n' :: fence3))
      = (p ++ fenceJson) ++ (('\n' :: J) ++ ('\n' :: fence3)) by simp]
    rw [show p.length + 7 = (p ++ fenceJson).length by
      simp [List.length_append]
      rfl]
    exact drop_len_append _ _
  have h3 : findSub (('\n' :: J) ++ ('\n' :: fence3)) fence3
      = some (J.length + 2) := by
    rw [show ('\n' :: J) ++ ('\n' :: fence3)
      = ('\n' :: J ++ ['\n']) ++ fence3 ++ [] by simp]
    rw [hf3]
    have hnb : ∀ c ∈ '\n' :: J ++ ['\n'], c ≠ '`' := by
      intro c hc
      rcases List.mem_cons.mp hc with h | hc2
      · rw [h]; decide
      · rcases List.mem_append.mp hc2 with h | h
        · exact hJ c h
        · rw [List.mem_singleton.mp h]; decide
    have := @findSub_boundary '`' ('`' :: '`' :: [])
      ('\n' :: J ++ ['\n']) [] hnb
    rw [this]
    congr 1
    simp
  have h4 : findSubFrom (p ++ (fenceJson ++ ('\n' :: J) ++ ('\n' :: fence3)))
      fence3 (p.length + 7) = some (J.length + 2 + (p.length + 7)) := by
    unfold findSubFrom
    rw [h2, h3]
    rfl
  simp only [fenceStep, h1, h4]
  rw [if_pos (by omega)]
  rw [h2]
  rw [show J.length + 2 + (p.length + 7) - (p.length + 7) = J.length + 2 by omega]
  have h5 : (('\n' :: J) ++ ('\n' :: fence3)).take (J.length + 2)
      = '\n' :: J ++ ['\n'] := by
    rw [show ('\n' :: J) ++ ('\n' :: fence3) = ('\n' :: J ++ ['\n']) ++ fence3 by simp]
    rw [show J.length + 2 = ('\n' :: J ++ ['\n']).length by simp]
    exact take_len_append _ _
  rw [h5]

/-- Brace seek and truncation leave a serialized opaque object unchanged. -/
theorem braceSteps_obj (ms : List (LC × Json)) (h : jsonAllM opaqueChar ms = true) :
    braceTrunc (braceSeek (dumpsV (.obj ms))) = dumpsV (.obj ms) := by
  have hhead : headIs '{' (dumpsV (.obj ms)) = true := rfl
  unfold braceSeek
  rw [hhead]
  simp only [if_true]
  unfold braceTrunc
  rw [hhead]
  simp only [if_true, braceScan_obj ms h]
  exact List.take_length _

theorem jsonAllM_of_obj {ms : List (LC × Json)} {p : Char → Bool}
    (h : jsonAll p (.obj ms) = true) : jsonAllM p ms = true := h

/-- Extraction applied to a bare serialized opaque object returns it
unchanged — no shape validation of any kind happens. -/
theorem extractReview_dumps_obj (ms : List (LC × Json))
    (h : jsonAll opaqueChar (.obj ms) = true) :
    extractReview (dumpsV (.obj ms)) = some (.obj ms) := by
  have hm : jsonAllM opaqueChar ms = true := jsonAllM_of_obj h
  have hnf : (dumpsV (.obj ms)).all notFence = true := dumpsV_notFence _ h
  have hrem : removeThink (dumpsV (.obj ms)) = dumpsV (.obj ms) := by
    unfold removeThink
    exact removeThinkGo_none _ _ (notFence_ne_lt hnf)
  have hF : dumpsV (.obj ms) = '{' :: (dumpsMems ms ++ ['}']) := by simp [dumpsV]
  have hR : (dumpsV (.obj ms)).reverse = '}' :: ((dumpsMems ms).reverse ++ ['{']) := by
    rw [hF]; simp
  have hstrip : stripChars (dumpsV (.obj ms)) = dumpsV (.obj ms) := by
    have := stripChars_append [] (dumpsV (.obj ms)) hF (by decide) hR (by decide)
    simpa using this
  have hfj : fenceJson = '`' :: ('`' :: '`' :: 'j' :: 's' :: 'o' :: 'n' :: []) := rfl
  have hf3 : fence3 = '`' :: ('`' :: '`' :: []) := rfl
  have hn1 : findSub (dumpsV (.obj ms)) fenceJson = none := by
    rw [hfj]; exact findSub_none _ (notFence_ne_bt hnf)
  have hn2 : findSub (dumpsV (.obj ms)) fence3 = none := by
    rw [hf3]; exact findSub_none _ (notFence_ne_bt hnf)
  have hfence : fenceStep (dumpsV (.obj ms)) = dumpsV (.obj ms) := by
    simp only [fenceStep, hn1, hn2]
  unfold extractReview
  rw [hrem, hstrip, hfence, braceSteps_obj ms hm, jsonLoads_dumpsV]

/-- Extraction applied to the C1 wrap — think block, prose, fenced JSON —
recovers the serialized object. -/
theorem extractReview_wrap (ms : List (LC × Json)) (body prose : LC)
    (hbody : ∀ c ∈ body, c ≠ '<')
    (hp1 : ∀ c ∈ prose, c ≠ '<') (hp2 : ∀ c ∈ prose, c ≠ '`')
    (h : jsonAll opaqueChar (.obj ms) = true) :
    extractReview (wrapText body prose (dumpsV (.obj ms)))
      = some (.obj ms) := by
  have hm : jsonAllM opaqueChar ms = true := jsonAllM_of_obj h
  have hnf : (dumpsV (.obj ms)).all notFence = true := dumpsV_notFence _ h
  have hrest : ∀ c ∈ prose ++ (fenceJson ++ ('\n' :: dumpsV (.obj ms))
      ++ ('\n' :: fence3)), c ≠ '<' := by
    intro c hc
    rcases List.mem_append.mp hc with h | hc2
    · exact hp1 c h
    · rcases List.mem_append.mp hc2 with hc3 | hc4
      · rcases List.mem_append.mp hc3 with h | h
        · intro he
          rw [he] at h
          exact absurd h (by decide)
        · rcases List.mem_cons.mp h with h2 | h2
          · rw [h2]; decide
          · exact notFence_ne_lt hnf c h2
      · rcases List.mem_cons.mp hc4 with h2 | h2
        · rw [h2]; decide
        · intro he
          rw [he] at h2
          exact absurd h2 (by decide)
  have hrem : removeThink (wrapText body prose (dumpsV (.obj ms)))
      = prose ++ (fenceJson ++ ('\n' :: dumpsV (.obj ms)) ++ ('\n' :: fence3)) := by
    rw [show wrapText body prose (dumpsV (.obj ms))
      = thinkOpen ++ body ++ thinkClose ++ (prose ++ (fenceJson
        ++ ('\n' :: dumpsV (.obj ms)) ++ ('\n' :: fence3))) by
      unfold wrapText; simp]
    exact removeThink_block body _ hbody hrest
  have hF : dumpsV (.obj ms) = '{' :: (dumpsMems ms ++ ['}']) := by simp [dumpsV]
  have hR : (dumpsV (.obj ms)).reverse = '}' :: ((dumpsMems ms).reverse ++ ['{']) := by
    rw [hF]; simp
  have hFENCE : fenceJson ++ ('\n' :: dumpsV (.obj ms)) ++ ('\n' :: fence3)
      = '`' :: ('`' :: '`' :: 'j' :: 's' :: 'o' :: 'n'
        :: (('\n' :: dumpsV (.obj ms)) ++ ('\n' :: fence3))) := by
    simp
    rfl
  have hRF : (fenceJson ++ ('\n' :: dumpsV (.obj ms)) ++ ('\n' :: fence3)).reverse
      = '`' :: ('`' :: '`' :: '\n' :: ((dumpsV (.obj ms)).reverse
        ++ '\n' :: fenceJson.reverse)) := by
    have h3r : fence3.reverse = '`' :: '`' :: '`' :: [] := rfl
    simp [List.reverse_append, h3r]
  have hstrip : stripChars (prose ++ (fenceJson ++ ('\n' :: dumpsV (.obj ms))
      ++ ('\n' :: fence3)))
      = prose.dropWhile pyWs ++ (fenceJson ++ ('\n' :: dumpsV (.obj ms))
        ++ ('\n' :: fence3)) :=
    stripChars_append _ _ hFENCE (by decide) hRF (by decide)
  have hp2' : ∀ c ∈ prose.dropWhile pyWs, c ≠ '`' := fun c hc =>
    hp2 c (mem_of_mem_dropWhile hc)
  have hfence := fenceStep_wrap (prose.dropWhile pyWs) (dumpsV (.obj ms)) hp2'
    (notFence_ne_bt hnf)
  have hinner : stripChars ('\n' :: dumpsV (.obj ms) ++ ['\n']) = dumpsV (.obj ms) :=
    stripChars_nl _ hF (by decide) hR (by decide)
  unfold extractReview
  rw [hrem, hstrip, hfence, hinner, braceSteps_obj ms hm, jsonLoads_dumpsV]

/-! ## The `ReviewResult` data model (REVIEW_SCHEMA in `core_review_v3.py`). -/

/-- One improvement record of the structured review schema. -/
structure Improvement where
  id : LC
  file : LC
  line_hint : LC
  severity : LC
  category : LC
  title : LC
  problem : LC
  solution : LC
  effort : LC
deriving Repr, DecidableEq

/-- The `severity` enum. -/
def SEVERITIES : List LC := ["critical".data, "high".data, "medium".data, "low".data]

/-- The `category` enum. -/
def CATEGORIES : List LC :=
  ["security".data, "performance".data, "quality".data, "architecture".data,
    "maintainability".data]

/-- The `effort` enum. -/
def EFFORTS : List LC := ["trivial".data, "small".data, "medium".data, "large".data]

/-- The top-level structured review record. -/
structure ReviewResult where
  improvements : List Improvement
  architecture_notes : LC
  security_posture : LC
  top_priority : LC
  risk_score : Int
deriving Repr, DecidableEq

/-- JSON encoding of an improvement, with fields in the order of the prompt's
example object. -/
def encodeImp (i : Improvement) : Json :=
  .obj [("id".data, .str i.id), ("file".data, .str i.file),
    ("line_hint".data, .str i.line_hint), ("severity".data, .str i.severity),
    ("category".data, .str i.category), ("title".data, .str i.title),
    ("problem".data, .str i.problem), ("solution".data, .str i.solution),
    ("effort".data, .str i.effort)]

/-- JSON encoding of a review result, with top-level keys in schema order. -/
def encodeRR (r : ReviewResult) : Json :=
  .obj [("improvements".data, .arr (r.improvements.map encodeImp)),
    ("architecture_notes".data, .str r.architecture_notes),
    ("security_posture".data, .str r.security_posture),
    ("top_priority".data, .str r.top_priority),
    ("risk_score".data, .num r.risk_score)]

/-- No duplicates, by boolean membership. -/
def nodupB : List LC → Bool
  | [] => true
  | x :: xs => !(xs.contains x) && nodupB xs

/-- Well-formedness of a `ReviewResult` per the data model: enum fields take
listed values, improvement ids are unique, `risk_score ∈ [0, 100]`. -/
def wellFormed (r : ReviewResult) : Bool :=
  r.improvements.all (fun i =>
    SEVERITIES.contains i.severity && CATEGORIES.contains i.category &&
      EFFORTS.contains i.effort) &&
  nodupB (r.improvements.map (·.id)) &&
  decide (0 ≤ r.risk_score) && decide (r.risk_score ≤ 100)

/-! ## Model Caller retry loops. -/

/-- Retry budget (`MAX_RETRIES` in all three retrying scripts). -/
def MAX_RETRIES : Nat := 3

/-- Observable outcome of a retry loop: final result, the attempt numbers in
the order the transport was invoked, and the backoff sleeps performed. -/
structure RunTrace (A : Type) where
  result : Except String A
  attempts : List Nat
  sleeps : List Nat
deriving Repr

/-- Retry loop of `core_review.review_code` (lines 160–189): any exception
retries with a `2 ^ attempt` sleep except on the final attempt, where it is
re-raised.  `fuel` is the number of retries still allowed after the current
attempt. -/
def retryAux (tr : Nat → Except String String) : Nat → Nat → RunTrace String
  | attempt, 0 =>
    match tr attempt with
    | .ok a => ⟨.ok a, [attempt], []⟩
    | .error e => ⟨.error e, [attempt], []⟩
  | attempt, f + 1 =>
    match tr attempt with
    | .ok a => ⟨.ok a, [attempt], []⟩
    | .error _ =>
      let r := retryAux tr (attempt + 1) f
      ⟨r.result, attempt :: r.attempts, 2 ^ attempt :: r.sleeps⟩

/-- `core_review.review_code` against a transport oracle `tr` mapping the
attempt number to the transport's outcome. -/
def review_code_core (tr : Nat → Except String String) : RunTrace String :=
  retryAux tr 1 (MAX_RETRIES - 1)

/-- One attempt of `core_review_v3.review_code`: the `try` block covers both
the transport call and the JSON extraction, so either failure raises. -/
def v3Attempt (tr : Nat → Except String LC) (attempt : Nat) : Except String Json :=
  match tr attempt with
  | .error e => .error e
  | .ok raw =>
    match extractReview raw with
    | some v => .ok v
    | none => .error ("JSONDecodeError")

/-- Retry loop of `core_review_v3.review_code` (and
`review_standalone.review_code`): transport and extraction failures alike
sleep `2 ^ attempt` and retry, except on the final attempt. -/
def v3RetryAux (tr : Nat → Except String LC) : Nat → Nat → RunTrace Json
  | attempt, 0 =>
    match v3Attempt tr attempt with
    | .ok a => ⟨.ok a, [attempt], []⟩
    | .error e => ⟨.error e, [attempt], []⟩
  | attempt, f + 1 =>
    match v3Attempt tr attempt with
    | .ok a => ⟨.ok a, [attempt], []⟩
    | .error _ =>
      let r := v3RetryAux tr (attempt + 1) f
      ⟨r.result, attempt :: r.attempts, 2 ^ attempt :: r.sleeps⟩

/-- `core_review_v3.review_code` against a transport oracle. -/
def review_code_v3 (tr : Nat → Except String LC) : RunTrace Json :=
  v3RetryAux tr 1 (MAX_RETRIES - 1)

/-! ## Content Budgeter
(`core_review.format_files` lines 130–153, plain fenced rendering, and
`core_review_v3.format_files` lines 188–250, annotated manifest rendering). -/

/-- Lexicographic comparison of character lists by code point, as Python
compares `str`. -/
def lcLe : LC → LC → Bool
  | [], _ => true
  | _ :: _, [] => false
  | a :: as, b :: bs => if a == b then lcLe as bs else decide (a < b)

/-- Stable insertion into a path-sorted file list. -/
def insertFile (x : LC × LC) : List (LC × LC) → List (LC × LC)
  | [] => [x]
  | y :: ys => if lcLe x.1 y.1 then x :: y :: ys else y :: insertFile x ys

/-- Stable sort of `(path, content)` pairs by path
(Python `files.sort(key=lambda x: x[0])`). -/
def sortFiles : List (LC × LC) → List (LC × LC)
  | [] => []
  | x :: xs => insertFile x (sortFiles xs)

/-- File extension without the leading dot
(`Path(path).suffix.lstrip(".")`). -/
def extOf (path : LC) : LC :=
  let base := (path.reverse.takeWhile (fun c => !(c == '/'))).reverse
  let revName := base.reverse
  let pre := revName.takeWhile (fun c => !(c == '.'))
  match revName.dropWhile (fun c => !(c == '.')) with
  | [] => []
  | _ :: [] => []
  | _ :: _ :: _ => pre.reverse

/-- Language tag of `core_review.format_files` (default `""`). -/
def langPlain (ext : LC) : LC :=
  if ext == "ts".data then "typescript".data
  else if ext == "tsx".data then "tsx".data
  else if ext == "rs".data then "rust".data
  else []

/-- One plain fenced block: `f"### {path}\n```{lang}\n{content}\n```\n\n"`. -/
def fileBlockPlain (path content : LC) : LC :=
  "### ".data ++ path ++ '\n' :: fence3 ++ langPlain (extOf path) ++
    '\n' :: content ++ '\n' :: fence3 ++ '\n' :: '\n' :: []

/-- Plain truncation marker
(`f"\n... (truncated: {remaining} more files)"`). -/
def markerPlain (remaining : Nat) : LC :=
  "\n... (truncated: ".data ++ natChars remaining ++ " more files)".data

/-- Shared budget loop: append whole blocks while they fit, else emit a single
marker computed from the number of parts appended so far (`k`) and stop. -/
def budgetGo (mk : Nat → LC) (maxSize : Nat) : List LC → Nat → Nat → LC
  | [], _, _ => []
  | b :: bs, size, k =>
    if size + b.length > maxSize then mk k
    else b ++ budgetGo mk maxSize bs (size + b.length) (k + 1)

/-- `core_review.format_files`: sort by path, then append whole blocks under
the byte budget, with a trailing `(truncated: n more files)` marker on
overflow. -/
def format_files (files : List (LC × LC)) (maxSize : Nat) : LC :=
  budgetGo (fun k => markerPlain (files.length - k)) maxSize
    ((sortFiles files).map (fun pc => fileBlockPlain pc.1 pc.2)) 0 0

/-- Language tag of `core_review_v3.format_files` (default: the extension). -/
def langV3 (ext : LC) : LC :=
  if ext == "ts".data then "typescript".data
  else if ext == "tsx".data then "tsx".data
  else if ext == "rs".data then "rust".data
  else if ext == "mjs".data then "javascript".data
  else if ext == "js".data then "javascript".data
  else ext

/-- Python `len(content.splitlines())` (newline-only model). -/
def splitlinesCount (cs : LC) : Nat :=
  if cs.isEmpty then 0
  else cs.count '\n' + (if cs.getLast? == some '\n' then 0 else 1)

/-- Python `str.endswith`. -/
def lcEndsWith (s pat : LC) : Bool := isPreOf pat.reverse s.reverse

/-- Component classification of `core_review_v3.format_files`
(path-substring based). -/
def componentOf (path : LC) : LC :=
  if hasSub path ("commands".data) then "backend-command".data
  else if hasSub path ("src-tauri".data) && lcEndsWith path (".rs".data) then
    "backend-core".data
  else if hasSub path ("src-tauri".data) &&
      (lcEndsWith path (".mjs".data) || lcEndsWith path (".js".data)) then
    "bridge".data
  else if hasSub path ("components".data) then "frontend-component".data
  else if hasSub path ("hooks".data) then "frontend-hook".data
  else if hasSub path ("stores".data) then "frontend-store".data
  else "frontend-core".data

/-- Join lines with newlines (Python `"\n".join`). -/
def joinNl : List LC → LC
  | [] => []
  | [l] => l
  | l :: m :: ls => l ++ '\n' :: joinNl (m :: ls)

/-- One `<file index=... />` manifest line. -/
def manifestLine (idx : Nat) (path content : LC) : LC :=
  "  <file index=\"".data ++ natChars idx ++ "\" path=\"".data ++ path ++
    "\" lang=\"".data ++ langV3 (extOf path) ++ "\" lines=\"".data ++
    natChars (splitlinesCount content) ++ "\" />".data

/-- Manifest lines for all files, 1-indexed. -/
def manifestLines : Nat → List (LC × LC) → List LC
  | _, [] => []
  | idx, (p, c) :: fs => manifestLine idx p c :: manifestLines (idx + 1) fs

/-- The complete `<file_manifest>` header of `core_review_v3.format_files`;
it lists every collected file and is appended before any budget check. -/
def manifestFor (files : List (LC × LC)) : LC :=
  joinNl ("<file_manifest>".data :: manifestLines 1 files ++
    ["</file_manifest>\n".data])

/-- One annotated `<file>` block of `core_review_v3.format_files`. -/
def fileBlockV3 (idx total : Nat) (path content : LC) : LC :=
  "\n<file index=\"".data ++ natChars idx ++ "\" total=\"".data ++
    natChars total ++ "\">\n  <metadata>\n    <path>".data ++ path ++
    "</path>\n    <language>".data ++ langV3 (extOf path) ++
    "</language>\n    <component>".data ++ componentOf path ++
    "</component>\n    <lines>".data ++ natChars (splitlinesCount content) ++
    "</lines>\n    <characters>".data ++ natChars content.length ++
    "</characters>\n  </metadata>\n  <content>\n".data ++ content ++
    "\n  </content>\n</file>\n".data

/-- The annotated blocks for all files, 1-indexed. -/
def blocksV3 : Nat → Nat → List (LC × LC) → List LC
  | _, _, [] => []
  | idx, total, (p, c) :: fs => fileBlockV3 idx total p c :: blocksV3 (idx + 1) total fs

/-- Annotated truncation marker
(`f"\n... truncated ({n} files remaining)"`). -/
def markerV3 (n : Nat) : LC :=
  "\n... truncated (".data ++ natChars n ++ " files remaining)".data

/-- `core_review_v3.format_files`: unconditional manifest, then whole
annotated blocks under the byte budget; the marker count is
`len(files) - len(parts)` where `parts` includes the manifest, so the loop
below starts `k` at 1. -/
def format_files_v3 (files : List (LC × LC)) (maxSize : Nat) : LC :=
  let manifest := manifestFor files
  manifest ++ budgetGo (fun k => markerV3 (files.length - k)) maxSize
    (blocksV3 1 files.length files) manifest.length 1

/-! ## Lemmas: the shared budget loop. -/

/-- The number of leading blocks whose cumulative size stays within the
budget, starting from `size` already consumed. -/
def fitCount (B : Nat) : List Nat → Nat → Nat
  | [], _ => 0
  | l :: ls, size => if size + l > B then 0 else fitCount B ls (size + l) + 1

/-- Concatenation of blocks (Python `"".join`). -/
def catL (bs : List LC) : LC := bs.foldr (· ++ ·) []

theorem catL_len (bs : List LC) : (catL bs).length = (bs.map List.length).sum := by
  induction bs with
  | nil => rfl
  | cons b bs ih => simp [catL, List.length_append] at ih ⊢; omega

/-- The budget loop emits exactly the longest fitting prefix of whole blocks,
followed by a single marker iff blocks were dropped. -/
theorem budgetGo_formula (mk : Nat → LC) (B : Nat) :
    ∀ (bs : List LC) (size k : Nat),
      budgetGo mk B bs size k
        = catL (bs.take (fitCount B (bs.map List.length) size))
          ++ (if fitCount B (bs.map List.length) size = bs.length then []
              else mk (k + fitCount B (bs.map List.length) size)) := by
  intro bs
  induction bs with
  | nil => intro size k; simp [budgetGo, fitCount, catL]
  | cons b bs ih =>
    intro size k
    simp only [budgetGo, List.map_cons]
    by_cases h : size + b.length > B
    · have hfc : fitCount B (b.length :: bs.map List.length) size = 0 := by
        simp only [fitCount]; rw [if_pos h]
      rw [if_pos h, hfc]
      simp [catL]
    · have hfc : fitCount B (b.length :: bs.map List.length) size
          = fitCount B (bs.map List.length) (size + b.length) + 1 := by
        simp only [fitCount]; rw [if_neg h]
      rw [if_neg h, hfc]
      rw [ih (size + b.length) (k + 1)]
      rw [List.take_succ_cons]
      rw [show catL (b :: (bs.take (fitCount B (bs.map List.length)
        (size + b.length)))) = b ++ catL (bs.take (fitCount B (bs.map List.length)
          (size + b.length))) from rfl]
      rw [List.append_assoc]
      congr 1
      by_cases hn : fitCount B (bs.map List.length) (size + b.length) = bs.length
      · rw [if_pos hn, if_pos (by simp [hn])]
      · rw [if_neg hn, if_neg (by simp [hn])]
        rw [show k + (fitCount B (bs.map List.length) (size + b.length) + 1)
          = k + 1 + fitCount B (bs.map List.length) (size + b.length) by omega]

/-- The budget loop never exceeds the budget by more than the single marker it
may append. -/
theorem budgetGo_len (mk : Nat → LC) (B : Nat) :
    ∀ (bs : List LC) (size k : Nat), size ≤ B →
      (budgetGo mk B bs size k).length + size
        ≤ B + (if fitCount B (bs.map List.length) size = bs.length then 0
            else (mk (k + fitCount B (bs.map List.length) size)).length) := by
  intro bs
  induction bs with
  | nil =>
    intro size k hs
    simp [budgetGo, fitCount]
    omega
  | cons b bs ih =>
    intro size k hs
    simp only [budgetGo, List.map_cons]
    by_cases h : size + b.length > B
    · have hfc : fitCount B (b.length :: bs.map List.length) size = 0 := by
        simp only [fitCount]; rw [if_pos h]
      rw [if_pos h, hfc]
      rw [if_neg (by simp)]
      simp
      omega
    · have hfc : fitCount B (b.length :: bs.map List.length) size
          = fitCount B (bs.map List.length) (size + b.length) + 1 := by
        simp only [fitCount]; rw [if_neg h]
      rw [if_neg h, hfc]
      have hrec := ih (size + b.length) (k + 1) (by omega)
      by_cases hn : fitCount B (bs.map List.length) (size + b.length) = bs.length
      · rw [if_pos hn] at hrec
        rw [if_pos (by simp [hn])]
        simp only [List.length_append]
        omega
      · rw [if_neg hn] at hrec
        rw [if_neg (by simp [hn])]
        simp only [List.length_append]
        rw [show k + (fitCount B (bs.map List.length) (size + b.length) + 1)
          = k + 1 + fitCount B (bs.map List.length) (size + b.length) by omega]
        omega

/-- The fitting prefix indeed fits. -/
theorem fitCount_fits (B : Nat) :
    ∀ (ls : List Nat) (size : Nat), size ≤ B →
      size + (ls.take (fitCount B ls size)).sum ≤ B := by
  intro ls
  induction ls with
  | nil => intro size hs; simpa [fitCount]
  | cons l ls ih =>
    intro size hs
    simp only [fitCount]
    by_cases h : size + l > B
    · rw [if_pos h]
      simpa
    · rw [if_neg h]
      rw [List.take_succ_cons]
      have := ih (size + l) (by omega)
      simp only [List.sum_cons]
      omega

/-- No longer prefix fits: `fitCount` is maximal. -/
theorem fitCount_max (B : Nat) :
    ∀ (ls : List Nat) (size j : Nat), j ≤ ls.length →
      size + (ls.take j).sum ≤ B → j ≤ fitCount B ls size := by
  intro ls
  induction ls with
  | nil =>
    intro size j hj _
    simp only [fitCount, List.length_nil] at hj ⊢
    omega
  | cons l ls ih =>
    intro size j hj hfit
    cases j with
    | zero => omega
    | succ j' =>
      rw [List.take_succ_cons, List.sum_cons] at hfit
      have h1 : ¬ (size + l > B) := by
        have := (ls.take j').sum
        omega
      simp only [fitCount, if_neg h1]
      have := ih (size + l) j' (by simpa using hj) (by omega)
      omega

theorem fitCount_le_length (B : Nat) :
    ∀ (ls : List Nat) (size : Nat), fitCount B ls size ≤ ls.length := by
  intro ls
  induction ls with
  | nil => intro size; simp [fitCount]
  | cons l ls ih =>
    intro size
    simp only [fitCount]
    by_cases h : size + l > B
    · rw [if_pos h]; simp
    · rw [if_neg h]
      have := ih (size + l)
      simp
      omega

/-! ## Path Filter and File Collector
(`core_review.should_include_path`/`gather_core_files`,
`review_standalone.gather_files`). -/

/-- Excluded directory names of `core_review.EXCLUDE_PATTERNS`. -/
def EXCLUDE_PATTERNS : List LC :=
  ["node_modules".data, "target".data, "dist".data, "build".data, ".git".data,
    "__pycache__".data, ".venv".data, "venv".data, ".next".data, ".turbo".data]

/-- Excluded directory names of `review_standalone.EXCLUDE_DIRS`. -/
def EXCLUDE_DIRS : List LC :=
  ["node_modules".data, "target".data, "dist".data, "build".data, ".git".data,
    "__pycache__".data, ".venv".data, "venv".data]

/-- Skip-list of `review_standalone.SKIP_FILES`. -/
def SKIP_FILES : List LC :=
  ["vite-env.d.ts".data, "auto-imports.d.ts".data, "components.d.ts".data,
    "__pycache__".data]

/-- `core_review.should_include_path`: a path (given as its `Path.parts`
component list) is included iff no component — the base name included — is in
the excluded set. -/
def should_include_path (parts : List LC) : Bool :=
  !(parts.any (fun seg => EXCLUDE_PATTERNS.contains seg))

/-- Filesystem oracle: which candidate paths (as component lists) are regular
files, and the text contents of those that decode (`none` models
`UnicodeDecodeError`/`PermissionError`). -/
structure FSModel where
  isFile : List LC → Bool
  readText : List LC → Option LC

/-- Relative path string of a component list. -/
def relStr : List LC → LC
  | [] => []
  | [p] => p
  | p :: q :: ps => p ++ '/' :: relStr (q :: ps)

/-- The filters of `review_standalone.gather_files` applied before the
dedup check: regular file, no excluded component, name not skip-listed. -/
def passFilters (fs : FSModel) (p : List LC) : Bool :=
  fs.isFile p && !(p.any (fun seg => EXCLUDE_DIRS.contains seg)) &&
    !(SKIP_FILES.contains (p.getLast?.getD []))

/-- Collection of one pattern's glob results, threading the `seen` set; a
relative path is recorded in `seen` before the read is attempted, exactly as
in the source. -/
def gatherPat (fs : FSModel) : List (List LC) → List LC → List (LC × LC) × List LC
  | [], seen => ([], seen)
  | fp :: rest, seen =>
    if passFilters fs fp then
      let rel := relStr fp
      if seen.contains rel then gatherPat fs rest seen
      else
        match fs.readText fp with
        | some c =>
          let os := gatherPat fs rest (rel :: seen)
          ((rel, c) :: os.1, os.2)
        | none => gatherPat fs rest (rel :: seen)
    else gatherPat fs rest seen

/-- Collection across all patterns in order. -/
def gatherAll (fs : FSModel) : List (List (List LC)) → List LC → List (LC × LC)
  | [], _ => []
  | pat :: pats, seen =>
    let os := gatherPat fs pat seen
    os.1 ++ gatherAll fs pats os.2

/-- `review_standalone.gather_files`: walk each pattern's glob results,
filter, dedup by relative path (first match wins), read, and sort by path. -/
def gather_files (fs : FSModel) (globResults : List (List (List LC))) :
    List (LC × LC) :=
  sortFiles (gatherAll fs globResults [])

/-! ## Report Renderer (`core_review_v3.format_issue_body` lines 329–420). -/

/-- The default model identifier. -/
def MODEL_NAME : LC := "gpt-5.2-codex-medium".data

/-- The per-severity buckets built by `format_issue_body`
(`by_severity = {"critical": [], "high": [], "medium": [], "low": []}`). -/
structure SevBuckets where
  crit : List Improvement
  hi : List Improvement
  med : List Improvement
  low : List Improvement
deriving Repr, DecidableEq

/-- `by_severity[item["severity"]].append(item)`: appends into the matching
bucket, `none` models the `KeyError` on an unrecognized severity. -/
def addBucket (b : SevBuckets) (i : Improvement) : Option SevBuckets :=
  if i.severity == "critical".data then some { b with crit := b.crit ++ [i] }
  else if i.severity == "high".data then some { b with hi := b.hi ++ [i] }
  else if i.severity == "medium".data then some { b with med := b.med ++ [i] }
  else if i.severity == "low".data then some { b with low := b.low ++ [i] }
  else none

/-- Fold of `addBucket` over the improvement list. -/
def buildBuckets : List Improvement → SevBuckets → Option SevBuckets
  | [], b => some b
  | i :: is, b =>
    match addBucket b i with
    | some b' => buildBuckets is b'
    | none => none

/-- `severity_icons` (total on the fixed iteration list
`["critical", "high", "medium", "low"]`). -/
def severityIcon (s : LC) : LC :=
  if s == "critical".data then "🔴".data
  else if s == "high".data then "🟠".data
  else if s == "medium".data then "🟡".data
  else "🟢".data

/-- `category_icons.get(item["category"], "📌")`: silent default icon. -/
def categoryIcon (c : LC) : LC :=
  if c == "security".data then "🔒".data
  else if c == "performance".data then "⚡".data
  else if c == "quality".data then "✨".data
  else if c == "architecture".data then "🏗️".data
  else if c == "maintainability".data then "🔧".data
  else "📌".data

/-- `effort_labels.get(item["effort"], item["effort"])`: silent fallback to
the raw value. -/
def effortLabel (e : LC) : LC :=
  if e == "trivial".data then "~1h".data
  else if e == "small".data then "~4h".data
  else if e == "medium".data then "~1d".data
  else if e == "large".data then "~1w".data
  else e

/-- Python `str.title()` on a single word. -/
def titleCase : LC → LC
  | [] => []
  | c :: cs => c.toUpper :: cs.map Char.toLower

/-- Thousands separator worker over reversed digits. -/
def commaRev : LC → Nat → LC
  | [], _ => []
  | [c], _ => [c]
  | c :: cs, k => if k == 2 then c :: ',' :: commaRev cs 0 else c :: commaRev cs (k + 1)

/-- Python `f"{n:,}"`. -/
def commaSep (n : Nat) : LC := (commaRev (natChars n).reverse 0).reverse

/-- The four markdown lines of one improvement entry plus its blank line. -/
def impLines (i : Improvement) : List LC :=
  ["- [ ] **`".data ++ i.id ++ "`** ".data ++ i.title,
    "  - ".data ++ categoryIcon i.category ++ ' ' :: titleCase i.category ++
      " · `".data ++ i.file ++ "` · ".data ++ effortLabel i.effort,
    "  - **Problem:** ".data ++ i.problem,
    "  - **Solution:** ".data ++ i.solution,
    []]

/-- One severity section: nothing when the bucket is empty, else a heading,
a blank line, and the bucket's improvements in order. -/
def sectionLines (sev : LC) (items : List Improvement) : List LC :=
  if items.isEmpty then []
  else
    ("#### ".data ++ severityIcon sev ++ ' ' :: titleCase sev ++ " (".data ++
      natChars items.length ++ ")".data) :: [] :: items.flatMap impLines

/-- The fixed lines of `format_issue_body` before the improvement sections. -/
def headerLines (r : ReviewResult) (file_count char_count : Nat)
    (b : SevBuckets) : List LC :=
  ["## 🔍 Structured Codebase Review".data, [],
    "**Scope:** ".data ++ natChars file_count ++ " files (".data ++
      commaSep char_count ++ " characters)".data,
    "**Model:** ".data ++ MODEL_NAME,
    "**Risk Score:** ".data ++ intChars r.risk_score ++ "/100".data,
    [], "---".data, [], "### 📊 Summary".data, [],
    "| Critical | High | Medium | Low |".data,
    "|:--------:|:----:|:------:|:---:|".data,
    "| ".data ++ natChars b.crit.length ++ " | ".data ++
      natChars b.hi.length ++ " | ".data ++ natChars b.med.length ++
      " | ".data ++ natChars b.low.length ++ " |".data,
    [], "**Top Priority:** ".data ++ r.top_priority,
    [], "---".data, [],
    "### 🏗️ Architecture".data, [], r.architecture_notes, [],
    "### 🔒 Security Posture".data, [], r.security_posture, [],
    "---".data, [], "### 📋 Improvements".data, []]

/-- The fixed trailing lines of `format_issue_body`. -/
def footerLines : List LC :=
  ["---".data, [],
    "*Automated review powered by LaoZhang API (".data ++ MODEL_NAME ++
      ") with structured output*".data]

/-- Specification-side grouping: the improvements of one severity, in their
original order. -/
def sevFilter (items : List Improvement) (sev : LC) : List Improvement :=
  items.filter (fun i => i.severity == sev)

/-- `core_review_v3.format_issue_body`: `none` models the `KeyError` raised
when an improvement carries an unrecognized severity. -/
def format_issue_body (r : ReviewResult) (file_count char_count : Nat) :
    Option LC :=
  match buildBuckets r.improvements ⟨[], [], [], []⟩ with
  | none => none
  | some b =>
    some (joinNl (headerLines r file_count char_count b ++
      (sectionLines ("critical".data) b.crit ++ sectionLines ("high".data) b.hi ++
        sectionLines ("medium".data) b.med ++ sectionLines ("low".data) b.low) ++
      footerLines))

/-! ## Lemmas: the renderer's bucket fold is grouping by severity. -/

theorem contains_true_mem {l : List LC} {x : LC} (h : l.contains x = true) :
    x ∈ l := by
  have : l.elem x = true := h
  exact (List.elem_iff).mp this

theorem contains_false_of_not_mem {l : List LC} {x : LC} (h : x ∉ l) :
    l.contains x = false := by
  cases hc : l.contains x
  · rfl
  · exact absurd (contains_true_mem hc) h

theorem buildBuckets_spec :
    ∀ (items : List Improvement) (b : SevBuckets),
      (∀ i ∈ items, SEVERITIES.contains i.severity = true) →
      buildBuckets items b = some
        ⟨b.crit ++ sevFilter items ("critical".data),
         b.hi ++ sevFilter items ("high".data),
         b.med ++ sevFilter items ("medium".data),
         b.low ++ sevFilter items ("low".data)⟩ := by
  intro items
  induction items with
  | nil =>
    intro b _
    simp [buildBuckets, sevFilter]
  | cons i is ih =>
    intro b hall
    have hall' : ∀ j ∈ is, SEVERITIES.contains j.severity = true :=
      fun j hj => hall j (by simp [hj])
    have hi : i.severity ∈ SEVERITIES := contains_true_mem (hall i (by simp))
    have hcases : i.severity = "critical".data ∨ i.severity = "high".data ∨
        i.severity = "medium".data ∨ i.severity = "low".data := by
      simpa [SEVERITIES] using hi
    rcases hcases with hsev | hsev | hsev | hsev
    · have hstep : buildBuckets (i :: is) b
          = buildBuckets is { b with crit := b.crit ++ [i] } := by
        simp [buildBuckets, addBucket, hsev]
      rw [hstep, ih _ hall']
      simp [sevFilter, List.filter_cons, hsev,
        (by decide : (("critical".data : LC) == "high".data) = false),
        (by decide : (("critical".data : LC) == "medium".data) = false),
        (by decide : (("critical".data : LC) == "low".data) = false)]
    · have hstep : buildBuckets (i :: is) b
          = buildBuckets is { b with hi := b.hi ++ [i] } := by
        simp [buildBuckets, addBucket, hsev,
          (by decide : (("high".data : LC) == "critical".data) = false)]
      rw [hstep, ih _ hall']
      simp [sevFilter, List.filter_cons, hsev,
        (by decide : (("high".data : LC) == "critical".data) = false),
        (by decide : (("high".data : LC) == "medium".data) = false),
        (by decide : (("high".data : LC) == "low".data) = false)]
    · have hstep : buildBuckets (i :: is) b
          = buildBuckets is { b with med := b.med ++ [i] } := by
        simp [buildBuckets, addBucket, hsev,
          (by decide : (("medium".data : LC) == "critical".data) = false),
          (by decide : (("medium".data : LC) == "high".data) = false)]
      rw [hstep, ih _ hall']
      simp [sevFilter, List.filter_cons, hsev,
        (by decide : (("medium".data : LC) == "critical".data) = false),
        (by decide : (("medium".data : LC) == "high".data) = false),
        (by decide : (("medium".data : LC) == "low".data) = false)]
    · have hstep : buildBuckets (i :: is) b
          = buildBuckets is { b with low := b.low ++ [i] } := by
        simp [buildBuckets, addBucket, hsev,
          (by decide : (("low".data : LC) == "critical".data) = false),
          (by decide : (("low".data : LC) == "high".data) = false),
          (by decide : (("low".data : LC) == "medium".data) = false)]
      rw [hstep, ih _ hall']
      simp [sevFilter, List.filter_cons, hsev,
        (by decide : (("low".data : LC) == "critical".data) = false),
        (by decide : (("low".data : LC) == "high".data) = false),
        (by decide : (("low".data : LC) == "medium".data) = false)]

theorem buildBuckets_none :
    ∀ (items : List Improvement) (b : SevBuckets) (i : Improvement),
      i ∈ items → SEVERITIES.contains i.severity = false →
      buildBuckets items b = none := by
  intro items
  induction items with
  | nil =>
    intro b i hi _
    cases hi
  | cons j js ih =>
    intro b i hi hbad
    rcases List.mem_cons.mp hi with h | h
    · subst h
      have hnm : i.severity ∉ SEVERITIES := fun hm => by
        have hc : SEVERITIES.contains i.severity = true := List.elem_iff.mpr hm
        rw [hc] at hbad
        cases hbad
      have h1 : (i.severity == "critical".data) = false :=
        beq_eq_false_iff_ne.mpr (fun he => hnm (by rw [he]; simp [SEVERITIES]))
      have h2 : (i.severity == "high".data) = false :=
        beq_eq_false_iff_ne.mpr (fun he => hnm (by rw [he]; simp [SEVERITIES]))
      have h3 : (i.severity == "medium".data) = false :=
        beq_eq_false_iff_ne.mpr (fun he => hnm (by rw [he]; simp [SEVERITIES]))
      have h4 : (i.severity == "low".data) = false :=
        beq_eq_false_iff_ne.mpr (fun he => hnm (by rw [he]; simp [SEVERITIES]))
      simp [buildBuckets, addBucket, h1, h2, h3, h4]
    · simp only [buildBuckets]
      cases haddb : addBucket b j with
      | none => rfl
      | some b' => exact ih b' i h hbad

/-! ## Lemmas: the collector deduplicates with first-match-wins. -/

/-- Specification-side helper: the first glob candidate that passes the
filters and has the given relative path. -/
def firstMatch (fs : FSModel) (rel : LC) : List (List LC) → Option (List LC)
  | [] => none
  | q :: qs =>
    if passFilters fs q && (relStr q == rel) then some q
    else firstMatch fs rel qs

theorem contains_cons_lc (x y : LC) (l : List LC) :
    (y :: l).contains x = (x == y || l.contains x) := by
  cases h : x == y <;> simp [List.contains, List.elem, h]

theorem contains_eq_true_of_mem {l : List LC} {x : LC} (h : x ∈ l) :
    l.contains x = true := List.elem_iff.mpr h

theorem gatherPat_append (fs : FSModel) :
    ∀ (l1 l2 : List (List LC)) (seen : List LC),
      gatherPat fs (l1 ++ l2) seen =
        ((gatherPat fs l1 seen).1 ++
           (gatherPat fs l2 (gatherPat fs l1 seen).2).1,
         (gatherPat fs l2 (gatherPat fs l1 seen).2).2) := by
  intro l1
  induction l1 with
  | nil => intro l2 seen; simp [gatherPat]
  | cons q qs ih =>
    intro l2 seen
    by_cases hpf : passFilters fs q = true
    · by_cases hsn : seen.contains (relStr q) = true
      · simp only [List.cons_append, gatherPat, hpf, hsn, if_true]
        exact ih l2 seen
      · rw [Bool.not_eq_true] at hsn
        cases hrt : fs.readText q with
        | some c0 =>
          simp only [List.cons_append, gatherPat, hpf, hsn, hrt, if_true,
            Bool.false_eq_true, if_false, List.append_eq]
          rw [ih l2 (relStr q :: seen)]
        | none =>
          simp only [List.cons_append, gatherPat, hpf, hsn, hrt, if_true,
            Bool.false_eq_true, if_false]
          exact ih l2 (relStr q :: seen)
    · rw [Bool.not_eq_true] at hpf
      simp only [List.cons_append, gatherPat, hpf, Bool.false_eq_true, if_false]
      exact ih l2 seen

theorem gatherAll_flatten (fs : FSModel) :
    ∀ (pats : List (List (List LC))) (seen : List LC),
      gatherAll fs pats seen = (gatherPat fs pats.flatten seen).1 := by
  intro pats
  induction pats with
  | nil => intro seen; simp [gatherAll, List.flatten, gatherPat]
  | cons p ps ih =>
    intro seen
    have h := gatherPat_append fs p ps.flatten seen
    calc gatherAll fs (p :: ps) seen
        = (gatherPat fs p seen).1 ++ gatherAll fs ps (gatherPat fs p seen).2 :=
          rfl
      _ = (gatherPat fs p seen).1 ++
            (gatherPat fs ps.flatten (gatherPat fs p seen).2).1 := by
          rw [ih]
      _ = (gatherPat fs (p ++ ps.flatten) seen).1 := by rw [h]
      _ = (gatherPat fs ((p :: ps).flatten) seen).1 := by
          rw [List.flatten_cons]

theorem not_mem_of_contains_false {l : List LC} {x : LC}
    (h : l.contains x = false) : x ∉ l := fun hm => by
  rw [contains_eq_true_of_mem hm] at h
  exact Bool.noConfusion h

theorem gatherPat_mem (fs : FSModel) :
    ∀ (cand : List (List LC)) (seen : List LC) (rel c : LC),
      ((rel, c) ∈ (gatherPat fs cand seen).1) ↔
        (seen.contains rel = false ∧
          ∃ q, firstMatch fs rel cand = some q ∧ fs.readText q = some c) := by
  intro cand
  induction cand with
  | nil =>
    intro seen rel c
    simp [gatherPat, firstMatch]
  | cons q qs ih =>
    intro seen rel c
    by_cases hpf : passFilters fs q = true
    · by_cases hbq : (relStr q == rel) = true
      · have heq : relStr q = rel := eq_of_beq hbq
        by_cases hsn : seen.contains (relStr q) = true
        · have hsnP : relStr q ∈ seen := contains_true_mem hsn
          have hcr : seen.contains rel = true := by rw [← heq]; exact hsn
          rw [show (gatherPat fs (q :: qs) seen).1 = (gatherPat fs qs seen).1
            from by simp [gatherPat, hpf, hsnP]]
          rw [ih seen rel c]
          rw [show firstMatch fs rel (q :: qs) = some q
            from by simp [firstMatch, hpf, hbq]]
          constructor
          · rintro ⟨hc, _⟩
            rw [hcr] at hc
            simp at hc
          · rintro ⟨hc, _⟩
            rw [hcr] at hc
            simp at hc
        · rw [Bool.not_eq_true] at hsn
          have hsnP : relStr q ∉ seen := not_mem_of_contains_false hsn
          rw [show firstMatch fs rel (q :: qs) = some q
            from by simp [firstMatch, hpf, hbq]]
          cases hrt : fs.readText q with
          | some c0 =>
            rw [show (gatherPat fs (q :: qs) seen).1 =
                (relStr q, c0) :: (gatherPat fs qs (relStr q :: seen)).1
              from by simp [gatherPat, hpf, hsnP, hrt]]
            rw [List.mem_cons]
            constructor
            · rintro (hpair | htail)
              · obtain ⟨h1, h2⟩ := Prod.mk.injEq .. ▸ hpair
                refine ⟨by rw [← heq]; exact hsn, q, rfl, ?_⟩
                rw [hrt, h2]
              · exfalso
                have hns := ((ih (relStr q :: seen) rel c).mp htail).1
                have hm : rel ∈ relStr q :: seen := by
                  rw [← heq]; exact List.mem_cons_self _ _
                rw [contains_eq_true_of_mem hm] at hns
                simp at hns
            · rintro ⟨hc, q', hq', hr⟩
              injection hq' with hq'
              left
              rw [← hq', hrt] at hr
              injection hr with hr
              rw [Prod.mk.injEq]
              exact ⟨heq.symm, hr.symm⟩
          | none =>
            rw [show (gatherPat fs (q :: qs) seen).1 =
                (gatherPat fs qs (relStr q :: seen)).1
              from by simp [gatherPat, hpf, hsnP, hrt]]
            rw [ih (relStr q :: seen) rel c]
            constructor
            · rintro ⟨hc, _⟩
              exfalso
              have hm : rel ∈ relStr q :: seen := by
                rw [← heq]; exact List.mem_cons_self _ _
              rw [contains_eq_true_of_mem hm] at hc
              simp at hc
            · rintro ⟨_, q', hq', hr⟩
              injection hq' with hq'
              exfalso
              rw [← hq', hrt] at hr
              exact Option.noConfusion hr
      · rw [Bool.not_eq_true] at hbq
        have hbq2 : (rel == relStr q) = false :=
          beq_eq_false_iff_ne.mpr (fun h => ne_of_beq_false hbq h.symm)
        rw [show firstMatch fs rel (q :: qs) = firstMatch fs rel qs
          from by simp [firstMatch, hpf, hbq]]
        by_cases hsn : seen.contains (relStr q) = true
        · have hsnP : relStr q ∈ seen := contains_true_mem hsn
          rw [show (gatherPat fs (q :: qs) seen).1 = (gatherPat fs qs seen).1
            from by simp [gatherPat, hpf, hsnP]]
          exact ih seen rel c
        · rw [Bool.not_eq_true] at hsn
          have hsnP : relStr q ∉ seen := not_mem_of_contains_false hsn
          cases hrt : fs.readText q with
          | some c0 =>
            rw [show (gatherPat fs (q :: qs) seen).1 =
                (relStr q, c0) :: (gatherPat fs qs (relStr q :: seen)).1
              from by simp [gatherPat, hpf, hsnP, hrt]]
            rw [List.mem_cons]
            rw [ih (relStr q :: seen) rel c]
            rw [contains_cons_lc, hbq2, Bool.false_or]
            constructor
            · rintro (hpair | htail)
              · exfalso
                obtain ⟨h1, _⟩ := Prod.mk.injEq .. ▸ hpair
                exact ne_of_beq_false hbq h1.symm
              · exact htail
            · intro h
              right
              exact h
          | none =>
            rw [show (gatherPat fs (q :: qs) seen).1 =
                (gatherPat fs qs (relStr q :: seen)).1
              from by simp [gatherPat, hpf, hsnP, hrt]]
            rw [ih (relStr q :: seen) rel c]
            rw [contains_cons_lc, hbq2, Bool.false_or]
    · rw [Bool.not_eq_true] at hpf
      rw [show (gatherPat fs (q :: qs) seen).1 = (gatherPat fs qs seen).1
        from by simp [gatherPat, hpf]]
      rw [show firstMatch fs rel (q :: qs) = firstMatch fs rel qs
        from by simp [firstMatch, hpf]]
      exact ih seen rel c

theorem gatherPat_nodup (fs : FSModel) :
    ∀ (cand : List (List LC)) (seen : List LC),
      ((gatherPat fs cand seen).1.map Prod.fst).Nodup := by
  intro cand
  induction cand with
  | nil => intro seen; simp [gatherPat]
  | cons q qs ih =>
    intro seen
    by_cases hpf : passFilters fs q = true
    · by_cases hsn : seen.contains (relStr q) = true
      · have hsnP : relStr q ∈ seen := contains_true_mem hsn
        rw [show (gatherPat fs (q :: qs) seen).1 = (gatherPat fs qs seen).1
          from by simp [gatherPat, hpf, hsnP]]
        exact ih seen
      · rw [Bool.not_eq_true] at hsn
        have hsnP : relStr q ∉ seen := not_mem_of_contains_false hsn
        cases hrt : fs.readText q with
        | some c0 =>
          rw [show (gatherPat fs (q :: qs) seen).1 =
              (relStr q, c0) :: (gatherPat fs qs (relStr q :: seen)).1
            from by simp [gatherPat, hpf, hsnP, hrt]]
          rw [List.map_cons, List.nodup_cons]
          refine ⟨?_, ih (relStr q :: seen)⟩
          intro hmem
          obtain ⟨⟨r', c'⟩, hmem', hfst⟩ := List.mem_map.mp hmem
          have hr' : r' = relStr q := hfst
          have hns := ((gatherPat_mem fs qs (relStr q :: seen) r' c').mp hmem').1
          have hm : r' ∈ relStr q :: seen := by
            rw [hr']; exact List.mem_cons_self _ _
          rw [contains_eq_true_of_mem hm] at hns
          exact Bool.noConfusion hns
        | none =>
          rw [show (gatherPat fs (q :: qs) seen).1 =
              (gatherPat fs qs (relStr q :: seen)).1
            from by simp [gatherPat, hpf, hsnP, hrt]]
          exact ih (relStr q :: seen)
    · rw [Bool.not_eq_true] at hpf
      rw [show (gatherPat fs (q :: qs) seen).1 = (gatherPat fs qs seen).1
        from by simp [gatherPat, hpf]]
      exact ih seen

theorem firstMatch_pass (fs : FSModel) (rel : LC) :
    ∀ (cand : List (List LC)) (q : List LC),
      firstMatch fs rel cand = some q →
      q ∈ cand ∧ passFilters fs q = true ∧ relStr q = rel := by
  intro cand
  induction cand with
  | nil => intro q h; exact Option.noConfusion h
  | cons p ps ih =>
    intro q h
    by_cases hc : (passFilters fs p && (relStr p == rel)) = true
    · rw [show firstMatch fs rel (p :: ps) = some p
        from by simp only [firstMatch, hc, if_true]] at h
      injection h with h
      subst h
      obtain ⟨h1, h2⟩ : passFilters fs p = true ∧ (relStr p == rel) = true := by
        simpa using hc
      exact ⟨List.mem_cons_self _ _, h1, eq_of_beq h2⟩
    · rw [Bool.not_eq_true] at hc
      rw [show firstMatch fs rel (p :: ps) = firstMatch fs rel ps
        from by simp only [firstMatch, hc, Bool.false_eq_true, if_false]] at h
      obtain ⟨hm, hp, hr⟩ := ih q h
      exact ⟨List.mem_cons_of_mem _ hm, hp, hr⟩

theorem insertFile_perm (x : LC × LC) :
    ∀ (l : List (LC × LC)), (insertFile x l).Perm (x :: l) := by
  intro l
  induction l with
  | nil => simp [insertFile]
  | cons y ys ih =>
    by_cases h : lcLe x.1 y.1 = true
    · rw [show insertFile x (y :: ys) = x :: y :: ys
        from by simp [insertFile, h]]
    · rw [Bool.not_eq_true] at h
      rw [show insertFile x (y :: ys) = y :: insertFile x ys
        from by simp [insertFile, h]]
      exact (ih.cons y).trans (List.Perm.swap x y ys)

theorem sortFiles_perm :
    ∀ (l : List (LC × LC)), (sortFiles l).Perm l := by
  intro l
  induction l with
  | nil => simp [sortFiles]
  | cons x xs ih =>
    rw [show sortFiles (x :: xs) = insertFile x (sortFiles xs) from rfl]
    exact (insertFile_perm x (sortFiles xs)).trans (ih.cons x)

/-! ## Step lemmas for the retry loops. -/

theorem retryAux_ok (tr : Nat → Except String String) (attempt f : Nat)
    (a : String) (h : tr attempt = .ok a) :
    retryAux tr attempt f = ⟨.ok a, [attempt], []⟩ := by
  cases f <;> simp [retryAux, h]

theorem retryAux_err_succ (tr : Nat → Except String String) (attempt f : Nat)
    (e : String) (h : tr attempt = .error e) :
    retryAux tr attempt (f + 1)
      = ⟨(retryAux tr (attempt + 1) f).result,
          attempt :: (retryAux tr (attempt + 1) f).attempts,
          2 ^ attempt :: (retryAux tr (attempt + 1) f).sleeps⟩ := by
  simp [retryAux, h]

theorem retryAux_err_zero (tr : Nat → Except String String) (attempt : Nat)
    (e : String) (h : tr attempt = .error e) :
    retryAux tr attempt 0 = ⟨.error e, [attempt], []⟩ := by
  simp [retryAux, h]

theorem v3RetryAux_ok (tr : Nat → Except String LC) (attempt f : Nat)
    (v : Json) (h : v3Attempt tr attempt = .ok v) :
    v3RetryAux tr attempt f = ⟨.ok v, [attempt], []⟩ := by
  cases f <;> simp [v3RetryAux, h]

theorem v3RetryAux_err_succ (tr : Nat → Except String LC) (attempt f : Nat)
    (e : String) (h : v3Attempt tr attempt = .error e) :
    v3RetryAux tr attempt (f + 1)
      = ⟨(v3RetryAux tr (attempt + 1) f).result,
          attempt :: (v3RetryAux tr (attempt + 1) f).attempts,
          2 ^ attempt :: (v3RetryAux tr (attempt + 1) f).sleeps⟩ := by
  simp [v3RetryAux, h]

theorem v3RetryAux_err_zero (tr : Nat → Except String LC) (attempt : Nat)
    (e : String) (h : v3Attempt tr attempt = .error e) :
    v3RetryAux tr attempt 0 = ⟨.error e, [attempt], []⟩ := by
  simp [v3RetryAux, h]

/-! ## Claim C4: the Model Caller retry policy. -/

/-- **C4** — `core_review.review_code`: `MAX_RETRIES` is 3; every transport
exception sleeps `2 ^ attempt` seconds and retries, with no error-class
distinction; a transport failing twice then succeeding returns the success
after sleeps `[2, 4]`; one that always fails re-raises the final exception
after exactly the attempts `[1, 2, 3]`; a first-attempt success performs no
sleep at all. -/
theorem c4_retry_policy (tr : Nat → Except String String) (a e1 e2 e3 : String) :
    MAX_RETRIES = 3
    ∧ (tr 1 = .error e1 → tr 2 = .error e2 → tr 3 = .ok a →
        review_code_core tr = ⟨.ok a, [1, 2, 3], [2, 4]⟩)
    ∧ (tr 1 = .error e1 → tr 2 = .error e2 → tr 3 = .error e3 →
        review_code_core tr = ⟨.error e3, [1, 2, 3], [2, 4]⟩)
    ∧ (tr 1 = .ok a → review_code_core tr = ⟨.ok a, [1], []⟩)
    ∧ (tr 1 = .error e1 → tr 2 = .ok a →
        review_code_core tr = ⟨.ok a, [1, 2], [2]⟩) := by
  refine ⟨rfl, ?_, ?_, ?_, ?_⟩
  · intro h1 h2 h3
    have s1 : retryAux tr 1 2
        = ⟨(retryAux tr 2 1).result, 1 :: (retryAux tr 2 1).attempts,
            2 ^ 1 :: (retryAux tr 2 1).sleeps⟩ :=
      retryAux_err_succ tr 1 1 e1 h1
    have s2 : retryAux tr 2 1
        = ⟨(retryAux tr 3 0).result, 2 :: (retryAux tr 3 0).attempts,
            2 ^ 2 :: (retryAux tr 3 0).sleeps⟩ :=
      retryAux_err_succ tr 2 0 e2 h2
    have s3 : retryAux tr 3 0 = ⟨.ok a, [3], []⟩ := retryAux_ok tr 3 0 a h3
    show retryAux tr 1 2 = _
    rw [s1, s2, s3]
    rfl
  · intro h1 h2 h3
    have s1 : retryAux tr 1 2
        = ⟨(retryAux tr 2 1).result, 1 :: (retryAux tr 2 1).attempts,
            2 ^ 1 :: (retryAux tr 2 1).sleeps⟩ :=
      retryAux_err_succ tr 1 1 e1 h1
    have s2 : retryAux tr 2 1
        = ⟨(retryAux tr 3 0).result, 2 :: (retryAux tr 3 0).attempts,
            2 ^ 2 :: (retryAux tr 3 0).sleeps⟩ :=
      retryAux_err_succ tr 2 0 e2 h2
    have s3 : retryAux tr 3 0 = ⟨.error e3, [3], []⟩ :=
      retryAux_err_zero tr 3 e3 h3
    show retryAux tr 1 2 = _
    rw [s1, s2, s3]
    rfl
  · intro h1
    show retryAux tr 1 2 = _
    rw [retryAux_ok tr 1 2 a h1]
  · intro h1 h2
    have s1 : retryAux tr 1 2
        = ⟨(retryAux tr 2 1).result, 1 :: (retryAux tr 2 1).attempts,
            2 ^ 1 :: (retryAux tr 2 1).sleeps⟩ :=
      retryAux_err_succ tr 1 1 e1 h1
    have s2 : retryAux tr 2 1 = ⟨.ok a, [2], []⟩ := retryAux_ok tr 2 1 a h2
    show retryAux tr 1 2 = _
    rw [s1, s2]
    rfl

/-- Transport oracle for the C4 witness: fails on attempts 1 and 2,
succeeds on attempt 3. -/
def c4tr : Nat → Except String String := fun n =>
  if n = 3 then .ok ("ok payload") else .error ("transport failure")

/-- Witness for C4 at the fail-fail-succeed transport. -/
theorem c4_retry_policy_witness :
    c4tr 1 = .error ("transport failure")
    ∧ c4tr 2 = .error ("transport failure")
    ∧ c4tr 3 = .ok ("ok payload")
    ∧ review_code_core c4tr = ⟨.ok ("ok payload"), [1, 2, 3], [2, 4]⟩ :=
  ⟨rfl, rfl, rfl,
    (c4_retry_policy c4tr ("ok payload") ("transport failure")
      ("transport failure") ("transport failure")).2.1 rfl rfl rfl⟩

/-! ## Claim C5: extraction failures re-enter the transport retry loop. -/

/-- A model reply containing no JSON object at all. -/
def c5raw : LC := "the model replied with no json".data

/-- A small JSON object the second attempt returns. -/
def c5obj : Json := .obj [("risk_score".data, Json.num 10)]

/-- Transport oracle for C5: attempt 1 returns unparseable text, later
attempts return a clean serialized object. -/
def c5tr : Nat → Except String LC := fun n =>
  if n = 1 then .ok c5raw else .ok (dumpsV c5obj)

/-- C5 counterexample: attempt 1's transport succeeds but extraction fails,
and `core_review_v3.review_code` then performs a second transport attempt
after a 2-second backoff — extraction failure is looped with transport. -/
theorem c5_counterexample :
    extractReview c5raw = none
    ∧ review_code_v3 c5tr = ⟨.ok c5obj, [1, 2], [2]⟩ := ⟨rfl, rfl⟩

/-- **C5** (amended) — in `core_review_v3.review_code` the `try` block spans
both the transport call and the JSON extraction, so when attempt 1's
transport succeeds but extraction fails, the loop sleeps 2 seconds and
re-invokes the transport from attempt 2 rather than surfacing the failure. -/
theorem c5_extraction_retried (tr : Nat → Except String LC) (raw : LC)
    (h1 : tr 1 = .ok raw) (hx : extractReview raw = none) :
    review_code_v3 tr
      = ⟨(v3RetryAux tr 2 1).result, 1 :: (v3RetryAux tr 2 1).attempts,
          2 :: (v3RetryAux tr 2 1).sleeps⟩ := by
  have hA : v3Attempt tr 1 = .error ("JSONDecodeError") := by
    simp [v3Attempt, h1, hx]
  show v3RetryAux tr 1 2 = _
  exact v3RetryAux_err_succ tr 1 1 ("JSONDecodeError") hA

/-- Witness for C5 at the concrete transport `c5tr`. -/
theorem c5_extraction_retried_witness :
    c5tr 1 = .ok c5raw
    ∧ extractReview c5raw = none
    ∧ review_code_v3 c5tr
        = ⟨(v3RetryAux c5tr 2 1).result, 1 :: (v3RetryAux c5tr 2 1).attempts,
            2 :: (v3RetryAux c5tr 2 1).sleeps⟩ :=
  ⟨rfl, rfl, c5_extraction_retried c5tr c5raw rfl rfl⟩

/-! ## Claim C1: the extractor round-trip. -/

/-- A small well-formed review result. -/
def c1r : ReviewResult :=
  ⟨[], "solid layering".data, "no issues found".data, "ship it".data, 5⟩

/-- C1 counterexample: when the prose before the fence itself contains the
substring occurring three backticks then the letters json, the fence search
finds the prose occurrence first and extraction fails on a well-formed,
correctly fenced result. -/
theorem c1_counterexample :
    wellFormed c1r = true
    ∧ extractReview (wrapText ("model reasoning".data)
        ("Note the ```json fence below:".data) (dumpsV (encodeRR c1r)))
      = none := ⟨rfl, rfl⟩

/-- **C1** (amended) — the round-trip holds when the think-block body and the
prose contain no think-markup opener, the prose contains no backtick, and the
serialized record's string content is opaque printable ASCII (no braces,
backticks, or angle opener): then extraction recovers exactly the serialized
record. -/
theorem c1_roundtrip (r : ReviewResult) (body prose : LC)
    (hw : wellFormed r = true)
    (hbody : ∀ c ∈ body, c ≠ '<')
    (hp1 : ∀ c ∈ prose, c ≠ '<') (hp2 : ∀ c ∈ prose, c ≠ '`')
    (hok : jsonAll opaqueChar (encodeRR r) = true) :
    extractReview (wrapText body prose (dumpsV (encodeRR r)))
      = some (encodeRR r) :=
  extractReview_wrap _ body prose hbody hp1 hp2 hok

/-- A well-formed review result with one improvement, for the C1 witness. -/
def c1w : ReviewResult :=
  ⟨[⟨"SEC-001".data, "src/app.ts".data, "~line 42".data, "high".data,
      "security".data, "Escape shell arguments".data,
      "arguments reach the shell unquoted".data,
      "quote each argument".data, "small".data⟩],
    "clean separation".data, "one injection risk".data,
    "fix SEC-001 first".data, 40⟩

/-- Witness for C1 at a concrete record, body and prose. -/
theorem c1_roundtrip_witness :
    wellFormed c1w = true
    ∧ jsonAll opaqueChar (encodeRR c1w) = true
    ∧ extractReview (wrapText ("weighing the evidence".data)
        ("Here is the structured review:".data) (dumpsV (encodeRR c1w)))
      = some (encodeRR c1w) :=
  ⟨by decide, by decide,
    c1_roundtrip c1w ("weighing the evidence".data)
      ("Here is the structured review:".data) (by decide) (by decide)
      (by decide) (by decide) (by decide)⟩

/-! ## Claim C2: extractor rejection and validation. -/

/-- C2 counterexample: a parsed object with an out-of-enum severity
(`"urgent"`), an out-of-range `risk_score` (150), and almost every required
field missing is returned as-is — no shape validation happens. -/
theorem c2_counterexample :
    SEVERITIES.contains ("urgent".data) = false
    ∧ ¬ (0 ≤ (150 : Int) ∧ (150 : Int) ≤ 100)
    ∧ extractReview (dumpsV (.obj [("improvements".data,
          .arr [.obj [("severity".data, .str ("urgent".data))]]),
        ("risk_score".data, .num 150)]))
      = some (.obj [("improvements".data,
          .arr [.obj [("severity".data, .str ("urgent".data))]]),
        ("risk_score".data, .num 150)]) :=
  ⟨by decide, by decide, rfl⟩

/-- **C2** (amended) — `review_code` returns `json.loads(content)` with no
shape validation at all: every serialized object over opaque string content
is extracted back verbatim, whatever its fields, enum values or
`risk_score`; the only failure mode is failing to locate and parse a JSON
value. -/
theorem c2_no_validation (ms : List (LC × Json))
    (h : jsonAll opaqueChar (.obj ms) = true) :
    extractReview (dumpsV (.obj ms)) = some (.obj ms) :=
  extractReview_dumps_obj ms h

/-- Witness for C2 at a concrete schema-violating object. -/
theorem c2_no_validation_witness :
    jsonAll opaqueChar (.obj [("severity".data, .str ("urgent".data))]) = true
    ∧ extractReview (dumpsV (.obj [("severity".data, .str ("urgent".data))]))
      = some (.obj [("severity".data, .str ("urgent".data))]) :=
  ⟨by decide, c2_no_validation [("severity".data, .str ("urgent".data))]
    (by decide)⟩

/-! ## Claim C3: the Content Budgeter bound and embedded prefix. -/

/-- Specification-side: the sorted plain blocks of `core_review.format_files`. -/
def plainBlocks (files : List (LC × LC)) : List LC :=
  (sortFiles files).map (fun pc => fileBlockPlain pc.1 pc.2)

/-- Specification-side: how many leading plain blocks fit in the budget. -/
def plainFit (files : List (LC × LC)) (B : Nat) : Nat :=
  fitCount B ((plainBlocks files).map List.length) 0

/-- Specification-side: the annotated blocks of `core_review_v3.format_files`. -/
def v3Blocks (files : List (LC × LC)) : List LC :=
  blocksV3 1 files.length files

/-- Specification-side: how many annotated blocks fit after the manifest. -/
def v3Fit (files : List (LC × LC)) (B : Nat) : Nat :=
  fitCount B ((v3Blocks files).map List.length) (manifestFor files).length

theorem fitCount_zero_of_gt (B : Nat) (ls : List Nat) (size : Nat)
    (h : B < size) : fitCount B ls size = 0 := by
  cases ls with
  | nil => rfl
  | cons l ls =>
    simp only [fitCount]
    rw [if_pos (by omega)]

/-- C3 counterexample: the annotated renderer appends the full manifest
before any budget check, so its output can exceed the budget by far more
than the marker: one small file under a 10-byte budget yields the manifest
plus a marker. -/
theorem c3_counterexample :
    format_files_v3 [("a".data, "hello".data)] 10
      = manifestFor [("a".data, "hello".data)] ++ markerV3 0
    ∧ 10 + (markerV3 0).length
        < (format_files_v3 [("a".data, "hello".data)] 10).length :=
  ⟨rfl, by decide⟩

/-- **C3** (amended) — `core_review.format_files` (plain rendering) embeds
exactly the maximal fitting prefix of the path-sorted blocks and stays within
`B` plus one marker; `core_review_v3.format_files` (annotated rendering)
embeds the maximal fitting prefix only after unconditionally emitting the
manifest, so its bound is `max B manifestLength` plus one marker. -/
theorem c3_budget (files : List (LC × LC)) (B : Nat) :
    (format_files files B
        = catL ((plainBlocks files).take (plainFit files B))
          ++ (if plainFit files B = (plainBlocks files).length then []
              else markerPlain (files.length - plainFit files B)))
    ∧ (format_files files B).length
        ≤ B + (markerPlain (files.length - plainFit files B)).length
    ∧ (((plainBlocks files).map List.length).take (plainFit files B)).sum ≤ B
    ∧ (∀ j, j ≤ (plainBlocks files).length →
        (((plainBlocks files).map List.length).take j).sum ≤ B →
        j ≤ plainFit files B)
    ∧ (format_files_v3 files B
        = manifestFor files
          ++ (catL ((v3Blocks files).take (v3Fit files B))
            ++ (if v3Fit files B = (v3Blocks files).length then []
                else markerV3 (files.length - (1 + v3Fit files B)))))
    ∧ (format_files_v3 files B).length
        ≤ max B (manifestFor files).length
          + (markerV3 (files.length - (1 + v3Fit files B))).length := by
  have hfoldP : fitCount B ((plainBlocks files).map List.length) 0
      = plainFit files B := rfl
  have hfoldV : fitCount B ((v3Blocks files).map List.length)
      (manifestFor files).length = v3Fit files B := rfl
  refine ⟨?_, ?_, ?_, ?_, ?_, ?_⟩
  · have h1 := budgetGo_formula (fun k => markerPlain (files.length - k)) B
      (plainBlocks files) 0 0
    simp only [Nat.zero_add] at h1
    rw [hfoldP] at h1
    exact h1
  · have h2 := budgetGo_len (fun k => markerPlain (files.length - k)) B
      (plainBlocks files) 0 0 (Nat.zero_le B)
    simp only [Nat.zero_add, Nat.add_zero] at h2
    rw [hfoldP] at h2
    refine le_trans h2 (Nat.add_le_add_left ?_ B)
    by_cases hfit : plainFit files B = (plainBlocks files).length
    · rw [if_pos hfit]
      exact Nat.zero_le _
    · rw [if_neg hfit]
  · have h3 := fitCount_fits B ((plainBlocks files).map List.length) 0
      (Nat.zero_le B)
    simp only [Nat.zero_add] at h3
    rw [hfoldP] at h3
    exact h3
  · intro j hj hsum
    have h4 := fitCount_max B ((plainBlocks files).map List.length) 0 j
      (by simpa using hj) (by simpa using hsum)
    rw [hfoldP] at h4
    exact h4
  · have h5 := budgetGo_formula (fun k => markerV3 (files.length - k)) B
      (v3Blocks files) (manifestFor files).length 1
    rw [hfoldV] at h5
    show manifestFor files ++ budgetGo (fun k => markerV3 (files.length - k)) B
        (v3Blocks files) (manifestFor files).length 1 = _
    rw [h5]
  · have h5 := budgetGo_formula (fun k => markerV3 (files.length - k)) B
      (v3Blocks files) (manifestFor files).length 1
    rw [hfoldV] at h5
    show (manifestFor files ++ budgetGo (fun k => markerV3 (files.length - k)) B
        (v3Blocks files) (manifestFor files).length 1).length ≤ _
    rw [List.length_append]
    by_cases hm : (manifestFor files).length ≤ B
    · have h6 := budgetGo_len (fun k => markerV3 (files.length - k)) B
        (v3Blocks files) (manifestFor files).length 1 hm
      rw [hfoldV] at h6
      have hle : (if v3Fit files B = (v3Blocks files).length then 0
          else ((fun k => markerV3 (files.length - k)) (1 + v3Fit files B)).length)
          ≤ (markerV3 (files.length - (1 + v3Fit files B))).length := by
        by_cases hfit : v3Fit files B = (v3Blocks files).length
        · rw [if_pos hfit]
          exact Nat.zero_le _
        · rw [if_neg hfit]
      have h7 := le_trans h6 (Nat.add_le_add_left hle B)
      have h8 := Nat.le_max_left B (manifestFor files).length
      omega
    · have hfit0 : v3Fit files B = 0 := by
        rw [show v3Fit files B = fitCount B ((v3Blocks files).map List.length)
          (manifestFor files).length from rfl]
        exact fitCount_zero_of_gt B _ _ (by omega)
      rw [hfit0] at h5 ⊢
      rw [h5]
      have h8 := Nat.le_max_right B (manifestFor files).length
      rw [show catL (List.take 0 (v3Blocks files)) = [] from rfl,
        List.nil_append]
      by_cases hlen : (0 : Nat) = (v3Blocks files).length
      · rw [if_pos hlen]
        simp only [List.length_nil]
        omega
      · rw [if_neg hlen]
        omega

/-- Witness for C3 at a concrete file list and budget. -/
theorem c3_budget_witness :
    (format_files [("a.ts".data, "X".data)] 100).length
      ≤ 100 + (markerPlain ([("a.ts".data, "X".data)].length
          - plainFit [("a.ts".data, "X".data)] 100)).length
    ∧ 0 ≤ plainFit [("a.ts".data, "X".data)] 100 :=
  ⟨(c3_budget [("a.ts".data, "X".data)] 100).2.1,
    (c3_budget [("a.ts".data, "X".data)] 100).2.2.2.1 0 (Nat.zero_le _)
      (by decide)⟩

/-! ## Claim C7: the truncation marker count. -/

/-- The two-file scenario of the C7 claim. -/
def c7files : List (LC × LC) := [("a.ts".data, "X".data), ("b.ts".data, "Y".data)]

/-- **C7** — on two files whose annotated blocks are 241 bytes each after a
155-byte manifest, a 396-byte budget embeds only the first block, omitting 1
file, yet `core_review_v3.format_files` emits a marker claiming `0` files
remain (`len(files) - len(parts)` counts the manifest in `parts`); the plain
`core_review.format_files` marker counts correctly (`1` more file) in the
analogous one-block-embedded scenario. -/
theorem c7_marker_count :
    format_files_v3 c7files 396
      = manifestFor c7files
        ++ (fileBlockV3 1 2 ("a.ts".data) ("X".data) ++ markerV3 0)
    ∧ markerV3 0 = "\n... truncated (0 files remaining)".data
    ∧ format_files c7files 30
      = fileBlockPlain ("a.ts".data) ("X".data) ++ markerPlain 1
    ∧ markerPlain 1 = "\n... (truncated: 1 more files)".data :=
  ⟨rfl, rfl, rfl, rfl⟩

/-! ## Claim C6: collector deduplication with first-match-wins. -/

/-- **C6** — `gather_files` (and `gather_core_files`) returns at most one
entry per relative path, and `(rel, c)` is returned exactly when the first
filter-passing glob candidate with relative path `rel` — across the patterns
in order — reads back content `c`; a candidate whose read fails poisons the
path via `seen`, and later patterns never override the first match. -/
theorem c6_dedup (fs : FSModel) (gr : List (List (List LC))) :
    ((gather_files fs gr).map Prod.fst).Nodup
    ∧ ∀ rel c : LC, ((rel, c) ∈ gather_files fs gr ↔
        ∃ q, firstMatch fs rel gr.flatten = some q
          ∧ fs.readText q = some c) := by
  constructor
  · have hperm : (gather_files fs gr).Perm (gatherAll fs gr []) :=
      sortFiles_perm _
    have hmap := hperm.map Prod.fst
    rw [gatherAll_flatten] at hmap
    exact (hmap.nodup_iff).mpr (gatherPat_nodup fs gr.flatten [])
  · intro rel c
    rw [show ((rel, c) ∈ gather_files fs gr) ↔ ((rel, c) ∈ gatherAll fs gr [])
      from (sortFiles_perm _).mem_iff]
    rw [gatherAll_flatten, gatherPat_mem fs gr.flatten [] rel c]
    rw [show (([] : List LC).contains rel) = false from rfl]
    simp

/-- Filesystem oracle for the C6 witness: everything is a readable file. -/
def fs6 : FSModel := ⟨fun _ => true, fun _ => some ("A".data)⟩

/-- Two patterns whose glob results both contain the same path. -/
def gr6 : List (List (List LC)) := [[["a.ts".data]], [["a.ts".data]]]

/-- Witness for C6: overlapping patterns yield a single entry. -/
theorem c6_dedup_witness :
    gather_files fs6 gr6 = [("a.ts".data, "A".data)]
    ∧ ((gather_files fs6 gr6).map Prod.fst).Nodup
    ∧ (("a.ts".data, "A".data) ∈ gather_files fs6 gr6 ↔
        ∃ q, firstMatch fs6 ("a.ts".data) gr6.flatten = some q
          ∧ fs6.readText q = some ("A".data)) :=
  ⟨rfl, (c6_dedup fs6 gr6).1, (c6_dedup fs6 gr6).2 ("a.ts".data) ("A".data)⟩

/-! ## Claim C8: renderer grouping. -/

/-- **C8** — when every severity is a listed enum value,
`core_review_v3.format_issue_body` renders the header (with the per-severity
count table), then one section per severity bucket in the order critical,
high, medium, low, each bucket holding its improvements in original order
(`sevFilter`), and empty buckets render nothing. -/
theorem c8_grouping (r : ReviewResult) (fc cc : Nat)
    (h : ∀ i ∈ r.improvements, SEVERITIES.contains i.severity = true) :
    format_issue_body r fc cc
      = some (joinNl (headerLines r fc cc
          ⟨sevFilter r.improvements ("critical".data),
           sevFilter r.improvements ("high".data),
           sevFilter r.improvements ("medium".data),
           sevFilter r.improvements ("low".data)⟩
        ++ (sectionLines ("critical".data)
              (sevFilter r.improvements ("critical".data))
          ++ sectionLines ("high".data)
              (sevFilter r.improvements ("high".data))
          ++ sectionLines ("medium".data)
              (sevFilter r.improvements ("medium".data))
          ++ sectionLines ("low".data)
              (sevFilter r.improvements ("low".data)))
        ++ footerLines))
    ∧ (∀ sev : LC, sectionLines sev [] = []) := by
  constructor
  · have hb := buildBuckets_spec r.improvements ⟨[], [], [], []⟩ h
    simp only [List.nil_append] at hb
    simp only [format_issue_body, hb]
  · intro sev
    simp [sectionLines]

/-- A low-severity improvement for the C8 witness. -/
def c8low : Improvement :=
  ⟨"Q-1".data, "a.ts".data, "~1".data, "low".data, "quality".data,
    "Tidy imports".data, "p".data, "s".data, "trivial".data⟩

/-- The first critical improvement for the C8 witness. -/
def c8crit1 : Improvement :=
  ⟨"SEC-1".data, "b.rs".data, "~2".data, "critical".data, "security".data,
    "Escape input".data, "p".data, "s".data, "small".data⟩

/-- A high-severity improvement for the C8 witness. -/
def c8high : Improvement :=
  ⟨"PERF-1".data, "c.ts".data, "~3".data, "high".data, "performance".data,
    "Cache result".data, "p".data, "s".data, "medium".data⟩

/-- The second critical improvement for the C8 witness. -/
def c8crit2 : Improvement :=
  ⟨"SEC-2".data, "d.rs".data, "~4".data, "critical".data, "security".data,
    "Pin version".data, "p".data, "s".data, "large".data⟩

/-- A review with severities in the order low, critical, high, critical. -/
def c8r : ReviewResult :=
  ⟨[c8low, c8crit1, c8high, c8crit2], "arch".data, "sec".data, "top".data, 30⟩

/-- Witness for C8 at severities [low, critical, high, critical]: the
critical bucket keeps both items in original order, the medium bucket is
empty, and the body renders per the grouping formula. -/
theorem c8_grouping_witness :
    (∀ i ∈ c8r.improvements, SEVERITIES.contains i.severity = true)
    ∧ sevFilter c8r.improvements ("critical".data) = [c8crit1, c8crit2]
    ∧ sevFilter c8r.improvements ("medium".data) = []
    ∧ format_issue_body c8r 4 1000
      = some (joinNl (headerLines c8r 4 1000
          ⟨sevFilter c8r.improvements ("critical".data),
           sevFilter c8r.improvements ("high".data),
           sevFilter c8r.improvements ("medium".data),
           sevFilter c8r.improvements ("low".data)⟩
        ++ (sectionLines ("critical".data)
              (sevFilter c8r.improvements ("critical".data))
          ++ sectionLines ("high".data)
              (sevFilter c8r.improvements ("high".data))
          ++ sectionLines ("medium".data)
              (sevFilter c8r.improvements ("medium".data))
          ++ sectionLines ("low".data)
              (sevFilter c8r.improvements ("low".data)))
        ++ footerLines)) :=
  ⟨by decide, rfl, rfl, (c8_grouping c8r 4 1000 (by decide)).1⟩

/-! ## Claim C9: renderer enum strictness. -/

/-- An improvement with a valid severity but unknown category and effort. -/
def c9a : Improvement :=
  ⟨"X-1".data, "f.ts".data, "~1".data, "low".data, "cosmic".data,
    "T".data, "p".data, "s".data, "years".data⟩

/-- Review carrying `c9a`. -/
def c9r : ReviewResult := ⟨[c9a], "a".data, "s".data, "t".data, 10⟩

/-- An improvement with an unknown severity. -/
def c9b : Improvement :=
  ⟨"X-2".data, "f.ts".data, "~1".data, "urgent".data, "security".data,
    "T".data, "p".data, "s".data, "small".data⟩

/-- Review carrying `c9b`. -/
def c9rb : ReviewResult := ⟨[c9b], "a".data, "s".data, "t".data, 10⟩

/-- C9 counterexample: an unrecognized category and effort do NOT make
rendering fail — `category_icons.get(..., "📌")` and
`effort_labels.get(e, e)` fall back silently, so the body still renders. -/
theorem c9_counterexample :
    CATEGORIES.contains ("cosmic".data) = false
    ∧ EFFORTS.contains ("years".data) = false
    ∧ (format_issue_body c9r 1 10).isSome = true :=
  ⟨by decide, by decide, rfl⟩

/-- **C9** (amended) — only the severity enum is strict: an unknown severity
raises (`by_severity[item["severity"]]` → `KeyError`, modelled as `none`),
while an unknown category silently renders the default pin icon and an
unknown effort silently renders the raw value. -/
theorem c9_enum_strictness :
    (∀ (r : ReviewResult) (fc cc : Nat) (i : Improvement),
        i ∈ r.improvements → SEVERITIES.contains i.severity = false →
        format_issue_body r fc cc = none)
    ∧ (∀ cg : LC, CATEGORIES.contains cg = false →
        categoryIcon cg = "📌".data)
    ∧ (∀ e : LC, EFFORTS.contains e = false → effortLabel e = e) := by
  refine ⟨?_, ?_, ?_⟩
  · intro r fc cc i hi hbad
    have h := buildBuckets_none r.improvements ⟨[], [], [], []⟩ i hi hbad
    simp only [format_issue_body, h]
  · intro cg hc
    have hnm : cg ∉ CATEGORIES := not_mem_of_contains_false hc
    have h1 : (cg == "security".data) = false :=
      beq_eq_false_iff_ne.mpr (fun he => hnm (by rw [he]; simp [CATEGORIES]))
    have h2 : (cg == "performance".data) = false :=
      beq_eq_false_iff_ne.mpr (fun he => hnm (by rw [he]; simp [CATEGORIES]))
    have h3 : (cg == "quality".data) = false :=
      beq_eq_false_iff_ne.mpr (fun he => hnm (by rw [he]; simp [CATEGORIES]))
    have h4 : (cg == "architecture".data) = false :=
      beq_eq_false_iff_ne.mpr (fun he => hnm (by rw [he]; simp [CATEGORIES]))
    have h5 : (cg == "maintainability".data) = false :=
      beq_eq_false_iff_ne.mpr (fun he => hnm (by rw [he]; simp [CATEGORIES]))
    simp [categoryIcon, h1, h2, h3, h4, h5]
  · intro e he
    have hnm : e ∉ EFFORTS := not_mem_of_contains_false he
    have h1 : (e == "trivial".data) = false :=
      beq_eq_false_iff_ne.mpr (fun hq => hnm (by rw [hq]; simp [EFFORTS]))
    have h2 : (e == "small".data) = false :=
      beq_eq_false_iff_ne.mpr (fun hq => hnm (by rw [hq]; simp [EFFORTS]))
    have h3 : (e == "medium".data) = false :=
      beq_eq_false_iff_ne.mpr (fun hq => hnm (by rw [hq]; simp [EFFORTS]))
    have h4 : (e == "large".data) = false :=
      beq_eq_false_iff_ne.mpr (fun hq => hnm (by rw [hq]; simp [EFFORTS]))
    simp [effortLabel, h1, h2, h3, h4]

/-- Witness for C9: unknown severity kills rendering; unknown category and
effort default silently. -/
theorem c9_enum_strictness_witness :
    SEVERITIES.contains ("urgent".data) = false
    ∧ format_issue_body c9rb 0 0 = none
    ∧ CATEGORIES.contains ("cosmic".data) = false
    ∧ categoryIcon ("cosmic".data) = "📌".data
    ∧ EFFORTS.contains ("years".data) = false
    ∧ effortLabel ("years".data) = "years".data :=
  ⟨by decide, c9_enum_strictness.1 c9rb 0 0 c9b (by decide) (by decide),
    by decide, c9_enum_strictness.2.1 ("cosmic".data) (by decide),
    by decide, c9_enum_strictness.2.2 ("years".data) (by decide)⟩

/-! ## Claim C10: the path filter excludes files named like excluded
directories. -/

/-- **C10** — `should_include_path` rejects a path whenever ANY component,
the base name included, is in the excluded set; likewise the standalone
filter `passFilters`, and everything `gather_files` returns passed the
filters — so a regular file literally named `build` or `dist` is never
collected. -/
theorem c10_excluded_name (parts : List LC) (d : LC) (fs : FSModel)
    (p : List LC) (gr : List (List (List LC))) (rel c : LC) :
    (d ∈ parts → EXCLUDE_PATTERNS.contains d = true →
      should_include_path parts = false)
    ∧ ((p.any fun seg => EXCLUDE_DIRS.contains seg) = true →
      passFilters fs p = false)
    ∧ ((rel, c) ∈ gather_files fs gr →
      ∃ q, q ∈ gr.flatten ∧ passFilters fs q = true ∧ relStr q = rel) := by
  refine ⟨?_, ?_, ?_⟩
  · intro hd hc
    simp only [should_include_path]
    rw [show (parts.any fun seg => EXCLUDE_PATTERNS.contains seg) = true
      from List.any_eq_true.mpr ⟨d, hd, hc⟩]
    rfl
  · intro h
    simp only [passFilters, h, Bool.not_true, Bool.and_false, Bool.false_and]
  · intro hmem
    have hmem2 : (rel, c) ∈ gatherAll fs gr [] :=
      (sortFiles_perm _).mem_iff.mp hmem
    rw [gatherAll_flatten] at hmem2
    obtain ⟨_, q, hfm, _⟩ := (gatherPat_mem fs gr.flatten [] rel c).mp hmem2
    obtain ⟨hq, hp, hr⟩ := firstMatch_pass fs rel gr.flatten q hfm
    exact ⟨q, hq, hp, hr⟩

/-- Witness for C10: a file whose base name is exactly `build` is rejected
by both filters. -/
theorem c10_excluded_name_witness :
    ("build".data ∈ [("src".data : LC), "build".data])
    ∧ EXCLUDE_PATTERNS.contains ("build".data) = true
    ∧ should_include_path [("src".data : LC), "build".data] = false
    ∧ passFilters ⟨fun _ => true, fun _ => some ("A".data)⟩
        [("build".data : LC)] = false :=
  ⟨by decide, by decide,
    (c10_excluded_name [("src".data : LC), "build".data] ("build".data)
      ⟨fun _ => true, fun _ => some ("A".data)⟩ [("build".data : LC)]
      [] [] []).1 (by decide) (by decide),
    (c10_excluded_name [("src".data : LC), "build".data] ("build".data)
      ⟨fun _ => true, fun _ => some ("A".data)⟩ [("build".data : LC)]
      [] [] []).2.1 (by decide)⟩

/-! ## `laozhang_review.review_diff`: a single transport attempt. -/

/-- `laozhang_review.review_diff` (lines 84–95) performs exactly one
transport call with no try/except and no retry loop: any exception
propagates immediately. -/
def review_diff (tr : Nat → Except String String) : RunTrace String :=
  match tr 1 with
  | .ok a => ⟨.ok a, [1], []⟩
  | .error e => ⟨.error e, [1], []⟩

/-- C4 counterexample: against the fail-fail-succeed transport,
`review_diff` — one of the claim's cited call sites — surfaces the very
first exception after a single attempt and no backoff sleep, instead of
retrying to the eventual success. -/
theorem c4_counterexample :
    review_diff c4tr = ⟨.error ("transport failure"), [1], []⟩
    ∧ c4tr 3 = .ok ("ok payload")
    ∧ review_code_core c4tr = ⟨.ok ("ok payload"), [1, 2, 3], [2, 4]⟩ :=
  ⟨rfl, rfl, rfl⟩
